import Mathlib

/-!
Verification of the Huffman text-compression core (`app.py`): the data
model (`NoHuffman` nodes), the frequency counter, the `heapq`-based tree
construction (`construir_arvore`), code generation (`gerar_codigos`) and
encoding (`comprimir`), together with a greedy longest-match decoder
used to state round-trip decodability.

Python strings are embedded as `List Char`; Python dicts (which preserve
insertion order) as association lists with in-place update; `heapq`'s
binary heap as a `List NoHuffman` with the exact `_siftdown`/`_siftup`
routines (fuel-based recursion, the fuel provably sufficient).
-/

/-- A node of the Huffman tree: `char` (`None` for internal nodes),
`freq`, and optional `left`/`right` children, as in class `NoHuffman`. -/
inductive NoHuffman : Type where
  | mk : Option Char → Nat → Option NoHuffman → Option NoHuffman → NoHuffman

/-- The `char` attribute. -/
def NoHuffman.char : NoHuffman → Option Char
  | .mk c _ _ _ => c

/-- The `freq` attribute. -/
def NoHuffman.freq : NoHuffman → Nat
  | .mk _ f _ _ => f

/-- The `left` attribute. -/
def NoHuffman.left : NoHuffman → Option NoHuffman
  | .mk _ _ l _ => l

/-- The `right` attribute. -/
def NoHuffman.right : NoHuffman → Option NoHuffman
  | .mk _ _ _ r => r

/-- `__lt__`: nodes compare by frequency only. -/
def NoHuffman.ltFreq (a b : NoHuffman) : Prop := a.freq < b.freq

instance (a b : NoHuffman) : Decidable (a.ltFreq b) :=
  inferInstanceAs (Decidable (a.freq < b.freq))

/-- The loop of `heapq._siftdown` (bubble the new item up toward
`startpos`); `fuel ≥ pos` makes the recursion run to completion. -/
def siftdownLoop : Nat → List NoHuffman → Nat → Nat → NoHuffman → List NoHuffman
  | 0, heap, _, pos, newitem => heap.set pos newitem
  | fuel + 1, heap, startpos, pos, newitem =>
    if startpos < pos then
      let parentpos := (pos - 1) / 2
      let parent := heap.getD parentpos newitem
      if newitem.ltFreq parent then
        siftdownLoop fuel (heap.set pos parent) startpos parentpos newitem
      else heap.set pos newitem
    else heap.set pos newitem

/-- `heapq.heappush`: append the item and sift it down toward the root. -/
def heappush (heap : List NoHuffman) (item : NoHuffman) : List NoHuffman :=
  siftdownLoop heap.length (heap ++ [item]) 0 heap.length item

/-- The loop of `heapq._siftup` (move the hole at `pos` down to a leaf,
always following the smaller child); returns the array and the final
position of the hole.  `fuel ≥ heap.length` suffices. -/
def siftupLoop : Nat → List NoHuffman → Nat → NoHuffman → List NoHuffman × Nat
  | 0, heap, pos, newitem => (heap.set pos newitem, pos)
  | fuel + 1, heap, pos, newitem =>
    let endpos := heap.length
    let childpos := 2 * pos + 1
    if childpos < endpos then
      let rightpos := childpos + 1
      let cp :=
        if rightpos < endpos ∧
            ¬ (heap.getD childpos newitem).ltFreq (heap.getD rightpos newitem) then
          rightpos
        else childpos
      siftupLoop fuel (heap.set pos (heap.getD cp newitem)) cp newitem
    else (heap.set pos newitem, pos)

/-- `heapq._siftup`: walk the hole down to a leaf, place the item there,
then sift it back down toward the root. -/
def siftup (heap : List NoHuffman) (pos : Nat) : List NoHuffman :=
  let newitem := heap.getD pos (NoHuffman.mk none 0 none none)
  let p := siftupLoop heap.length heap pos newitem
  siftdownLoop p.2 p.1 pos p.2 newitem

/-- `heapq.heappop`: pop the last element; if the heap is still nonempty,
the root is returned and the last element sifted from the root.  `none`
models the `IndexError` raised on an empty heap. -/
def heappop (heap : List NoHuffman) : Option (NoHuffman × List NoHuffman) :=
  match heap.getLast?, heap.dropLast with
  | none, _ => none
  | some lastelt, [] => some (lastelt, [])
  | some lastelt, x :: xs => some (x, siftup (lastelt :: xs) 0)

/-- One `frequencias[char] += 1` on the insertion-ordered dict. -/
def bump : List (Char × Nat) → Char → List (Char × Nat)
  | [], c => [(c, 1)]
  | (k, v) :: rest, c => if k = c then (k, v + 1) :: rest else (k, v) :: bump rest c

/-- The frequency table of `construir_arvore`: a `defaultdict(int)`
filled in input order, embedded as an insertion-ordered association
list. -/
def frequencias (texto : List Char) : List (Char × Nat) :=
  texto.foldl bump []

/-- `codigos[k] = v` on an insertion-ordered dict. -/
def dictSet : List (Char × List Char) → Char → List Char → List (Char × List Char)
  | [], k, v => [(k, v)]
  | (k', v') :: rest, k, v =>
    if k' = k then (k, v) :: rest else (k', v') :: dictSet rest k v

/-- `codigos.get(k, dflt)`. -/
def dictGetD (d : List (Char × List Char)) (k : Char) (dflt : List Char) : List Char :=
  match d.find? (fun p => p.1 = k) with
  | some p => p.2
  | none => dflt

/-- `gerar_codigos` on a present node: write the accumulated path for a
leaf, otherwise recurse left (path + "0") then right (path + "1"); an
absent child contributes nothing, as in the `raiz is None` guard. -/
def gerarNo : NoHuffman → List Char → List (Char × List Char) → List (Char × List Char)
  | .mk (some c) _ _ _, codigo_atual, codigos => dictSet codigos c codigo_atual
  | .mk none _ l r, codigo_atual, codigos =>
    let codigos1 := match l with
      | none => codigos
      | some tl => gerarNo tl (codigo_atual ++ ['0']) codigos
    match r with
    | none => codigos1
    | some tr => gerarNo tr (codigo_atual ++ ['1']) codigos1

/-- `gerar_codigos`: depth-first traversal writing each leaf symbol's
accumulated path string into the table (0 = left, 1 = right). -/
def gerar_codigos (raiz : Option NoHuffman) (codigo_atual : List Char)
    (codigos : List (Char × List Char)) : List (Char × List Char) :=
  match raiz with
  | none => codigos
  | some t => gerarNo t codigo_atual codigos

/-- The `while len(heap) > 1` merge loop of `construir_arvore`:
pop the two smallest nodes, merge them into an internal node, push it
back.  `fuel ≥ heap.length` suffices. -/
def huffLoop : Nat → List NoHuffman → List NoHuffman
  | 0, heap => heap
  | fuel + 1, heap =>
    if 1 < heap.length then
      match heappop heap with
      | some (no1, h1) =>
        match heappop h1 with
        | some (no2, h2) =>
          huffLoop fuel
            (heappush h2 (NoHuffman.mk none (no1.freq + no2.freq) (some no1) (some no2)))
        | none => heap
      | none => heap
    else heap

/-- `construir_arvore`: frequency count, heap of leaves, single-symbol
special case (code "0"), greedy merge loop, then code generation. -/
def construir_arvore (texto : List Char) : Option NoHuffman × List (Char × List Char) :=
  if texto = [] then (none, [])
  else
    let freqs := frequencias texto
    let heap := freqs.foldl (fun h p => heappush h (NoHuffman.mk (some p.1) p.2 none none)) []
    if heap.length = 1 then
      match heappop heap with
      | some (raiz, _) =>
        match raiz.char with
        | some c => (some raiz, [(c, ['0'])])
        | none => (some raiz, [])
      | none => (none, [])
    else
      match heappop (huffLoop heap.length heap) with
      | some (raiz, _) => (some raiz, gerar_codigos (some raiz) [] [])
      | none => (none, [])

/-- `comprimir`: empty table gives the empty string, otherwise the
concatenation of `codigos.get(char, '')` over the input. -/
def comprimir (texto : List Char) (codigos : List (Char × List Char)) : List Char :=
  if codigos = [] then []
  else (texto.map (fun c => dictGetD codigos c [])).flatten

/-- Modelled from the spec: the repository ships no decoder, and the
round-trip property defines decoding as greedily matching the longest
valid code at each position.  `longestMatch` returns the table entry
with the longest nonempty code that starts the bit string. -/
def longestMatch (codigos : List (Char × List Char)) (bits : List Char) :
    Option (Char × List Char) :=
  (codigos.filter (fun p => !p.2.isEmpty && p.2.isPrefixOf bits)).foldl
    (fun best p =>
      match best with
      | none => some p
      | some q => if q.2.length < p.2.length then some p else some q)
    none

/-- Modelled from the spec: greedy longest-match decoding, consuming the
matched code at each step.  `fuel ≥ bits.length` suffices because every
matched code is nonempty. -/
def decodeGreedy : Nat → List (Char × List Char) → List Char → Option (List Char)
  | _, _, [] => some []
  | 0, _, _ :: _ => none
  | fuel + 1, codigos, bits =>
    match longestMatch codigos bits with
    | none => none
    | some (c, w) =>
      (decodeGreedy fuel codigos (bits.drop w.length)).map (fun rest => c :: rest)

/-- Modelled from the spec: decode a bit string with a code table by
greedy longest-match. -/
def decodeTable (codigos : List (Char × List Char)) (bits : List Char) :
    Option (List Char) :=
  decodeGreedy bits.length codigos bits

/-- The symbols at the leaves of a tree, in left-to-right order. -/
def symsN : NoHuffman → List Char
  | .mk (some c) _ _ _ => [c]
  | .mk none _ l r =>
    (match l with | none => [] | some tl => symsN tl) ++
    (match r with | none => [] | some tr => symsN tr)

/-- The symbols at the leaves of an optional tree. -/
def symsO : Option NoHuffman → List Char
  | none => []
  | some t => symsN t

/-- Structural well-formedness maintained by `construir_arvore`: a node
with a symbol is a leaf with no children; a node without a symbol has
exactly two children and carries the sum of their frequencies. -/
def wfTree : NoHuffman → Prop
  | .mk (some _) _ l r => l = none ∧ r = none
  | .mk none f l r =>
    match l, r with
    | some tl, some tr => f = tl.freq + tr.freq ∧ wfTree tl ∧ wfTree tr
    | _, _ => False

/-- All nodes of a tree (preorder). -/
def allNodesN : NoHuffman → List NoHuffman
  | .mk c f l r =>
    NoHuffman.mk c f l r ::
      ((match l with | none => [] | some tl => allNodesN tl) ++
       (match r with | none => [] | some tr => allNodesN tr))

/-- Frequency of an optional node, 0 when absent. -/
def freqO : Option NoHuffman → Nat
  | none => 0
  | some t => t.freq

/-- The (symbol, path) pairs that `gerar_codigos` appends for a given
subtree, with `cur` the accumulated path. -/
def codeListN : NoHuffman → List Char → List (Char × List Char)
  | .mk (some c) _ _ _, cur => [(c, cur)]
  | .mk none _ l r, cur =>
    (match l with | none => [] | some tl => codeListN tl (cur ++ ['0'])) ++
    (match r with | none => [] | some tr => codeListN tr (cur ++ ['1']))

/-- The leaf symbols of all trees on the heap, concatenated. -/
def heapSyms (l : List NoHuffman) : List Char :=
  (l.map symsN).flatten

/-- Invariant of the merge loop: all heap trees are well-formed and no
symbol occurs at two leaves (across the whole heap). -/
def heapInv (l : List NoHuffman) : Prop :=
  (∀ t ∈ l, wfTree t) ∧ (heapSyms l).Nodup

/-- Insert a value into a sorted list of naturals, keeping it sorted. -/
def sortedInsert : Nat → List Nat → List Nat
  | x, [] => [x]
  | x, y :: rest => if x ≤ y then x :: y :: rest else y :: sortedInsert x rest

/-- Insertion sort on naturals. -/
def sortNat : List Nat → List Nat
  | [] => []
  | x :: rest => sortedInsert x (sortNat rest)

/-- Total merge cost of the greedy Huffman procedure on a sorted weight
list: repeatedly replace the two smallest weights by their sum, adding
that sum to the cost.  `fuel ≥ length` suffices. -/
def huffGo : Nat → List Nat → Nat
  | 0, _ => 0
  | _ + 1, [] => 0
  | _ + 1, [_] => 0
  | fuel + 1, a :: b :: rest => (a + b) + huffGo fuel (sortedInsert (a + b) rest)

/-- The greedy Huffman merge cost of a multiset of weights. -/
def huffVal (ws : List Nat) : Nat :=
  huffGo ws.length (sortNat ws)

/-- Sum of the frequencies stored at internal nodes (equals the weighted
code length of the leaves for well-formed trees). -/
def intSum : NoHuffman → Nat
  | .mk (some _) _ _ _ => 0
  | .mk none f l r =>
    f + ((match l with | none => 0 | some tl => intSum tl) +
         (match r with | none => 0 | some tr => intSum tr))

/-- Weighted depth sum of the leaves, the depth offset by `d`. -/
def wsum : NoHuffman → Nat → Nat
  | .mk (some _) f _ _, d => f * d
  | .mk none _ l r, d =>
    (match l with | none => 0 | some tl => wsum tl (d + 1)) +
    (match r with | none => 0 | some tr => wsum tr (d + 1))

/-- The (symbol, frequency) pairs at the leaves, left to right. -/
def leafPairs : NoHuffman → List (Char × Nat)
  | .mk (some c) f _ _ => [(c, f)]
  | .mk none _ l r =>
    (match l with | none => [] | some tl => leafPairs tl) ++
    (match r with | none => [] | some tr => leafPairs tr)

/-- Weighted code length of a table against a frequency table. -/
def tableCost (freqs : List (Char × Nat)) (cods : List (Char × List Char)) : Nat :=
  (freqs.map (fun p => p.2 * (dictGetD cods p.1 []).length)).sum

/-- Weighted code length of a parallel list of codewords. -/
def costW (ws : List Nat) (cs : List (List Char)) : Nat :=
  (List.zipWith (fun w c => w * c.length) ws cs).sum

/-- Weighted code length of a list of (weight, codeword) entries. -/
def costE (es : List (Nat × List Char)) : Nat :=
  (es.map (fun e => e.1 * e.2.length)).sum

/-- Total codeword length of a list of (weight, codeword) entries. -/
def totLen (es : List (Nat × List Char)) : Nat :=
  (es.map (fun e => e.2.length)).sum

/-- The frequency stored at position `i` of the heap array. -/
def nfreq (l : List NoHuffman) (i : Nat) : Nat :=
  (l.getD i (NoHuffman.mk none 0 none none)).freq

/-- The binary-heap shape invariant of `heapq`: every parent frequency
is at most its children frequencies. -/
def isHeap (l : List NoHuffman) : Prop :=
  ∀ i j, (j = 2 * i + 1 ∨ j = 2 * i + 2) → j < l.length → nfreq l i ≤ nfreq l j

/-- Heap except that the entry at `p` may be smaller than its parent,
with the parent of `p` still dominating the children of `p`. -/
def heapExceptUp (l : List NoHuffman) (p : Nat) : Prop :=
  (∀ i j, (j = 2 * i + 1 ∨ j = 2 * i + 2) → j < l.length →
    ¬(0 < p ∧ i = (p - 1) / 2 ∧ j = p) → nfreq l i ≤ nfreq l j) ∧
  (∀ j, (j = 2 * p + 1 ∨ j = 2 * p + 2) → j < l.length → 0 < p →
    nfreq l ((p - 1) / 2) ≤ nfreq l j)

/-- Heap with a hole at `p`: all pairs away from `p` are ordered, and
the parent of `p` dominates the children of `p`. -/
def holeInv (l : List NoHuffman) (p : Nat) : Prop :=
  (∀ i j, (j = 2 * i + 1 ∨ j = 2 * i + 2) → j < l.length → i ≠ p → j ≠ p →
    nfreq l i ≤ nfreq l j) ∧
  (∀ j, (j = 2 * p + 1 ∨ j = 2 * p + 2) → j < l.length → 0 < p →
    nfreq l ((p - 1) / 2) ≤ nfreq l j)

/-- The frequencies of the heap trees. -/
def heapFreqs (l : List NoHuffman) : List Nat :=
  l.map NoHuffman.freq

/-- The leaf (symbol, frequency) pairs of all heap trees. -/
def heapPairs (l : List NoHuffman) : List (Char × Nat) :=
  (l.map leafPairs).flatten

/-- Total internal-node frequency over the heap. -/
def intSums (l : List NoHuffman) : Nat :=
  (l.map intSum).sum

/-- The canonical induction principle used for the tree recursions. -/
theorem NoHuffman.ind {P : NoHuffman → Prop}
    (h : ∀ c f l r, (∀ tl, l = some tl → P tl) → (∀ tr, r = some tr → P tr) →
      P (.mk c f l r)) :
    ∀ t, P t
  | .mk c f l r =>
    h c f l r
      (fun tl htl =>
        match l, htl with
        | some x, htl => (Option.some.inj htl) ▸ NoHuffman.ind h x)
      (fun tr htr =>
        match r, htr with
        | some x, htr => (Option.some.inj htr) ▸ NoHuffman.ind h x)

/-! ### Permutation facts about the heap primitives -/

theorem cons_set_perm {α : Type} (l : List α) (k : Nat) (v : α) (hk : k < l.length) :
    List.Perm (l[k] :: l.set k v) (v :: l) := by
  induction l generalizing k with
  | nil => simp at hk
  | cons a t ih =>
    cases k with
    | zero => simpa using List.Perm.swap v a t
    | succ k =>
      have hk' : k < t.length := by simpa using hk
      have step : List.Perm (t[k] :: a :: t.set k v) (a :: t[k] :: t.set k v) :=
        List.Perm.swap _ _ _
      simp only [List.getElem_cons_succ, List.set_cons_succ]
      exact step.trans (((ih k hk').cons a).trans (List.Perm.swap _ _ _))

theorem cons_set_swap_perm {α : Type} (l : List α) (k : Nat) (a v : α)
    (hk : k < l.length) :
    List.Perm (v :: l.set k a) (a :: l.set k v) := by
  induction l generalizing k with
  | nil => simp at hk
  | cons b t ih =>
    cases k with
    | zero => simpa using List.Perm.swap a v t
    | succ k =>
      have hk' : k < t.length := by simpa using hk
      simp only [List.set_cons_succ]
      exact (List.Perm.swap _ _ _).trans
        (((ih k hk').cons b).trans (List.Perm.swap _ _ _))

theorem set_set_perm {α : Type} (l : List α) (i j : Nat) (v : α)
    (hi : i < l.length) (hj : j < l.length) (hij : i ≠ j) :
    List.Perm ((l.set i l[j]).set j v) (l.set i v) := by
  induction l generalizing i j with
  | nil => simp at hi
  | cons a t ih =>
    cases i with
    | zero =>
      cases j with
      | zero => exact absurd rfl hij
      | succ j =>
        have hj' : j < t.length := by simpa using hj
        simp only [List.getElem_cons_succ, List.set_cons_zero, List.set_cons_succ]
        exact cons_set_perm t j v hj'
    | succ i =>
      cases j with
      | zero =>
        have hi' : i < t.length := by simpa using hi
        simp only [List.getElem_cons_zero, List.set_cons_succ, List.set_cons_zero]
        exact cons_set_swap_perm t i a v hi'
      | succ j =>
        have hi' : i < t.length := by simpa using hi
        have hj' : j < t.length := by simpa using hj
        have hij' : i ≠ j := fun h => hij (by rw [h])
        simp only [List.getElem_cons_succ, List.set_cons_succ]
        exact (ih i j hi' hj' hij').cons a

theorem set_of_getElem? {α : Type} (l : List α) (i : Nat) (a : α)
    (h : l[i]? = some a) : l.set i a = l := by
  induction l generalizing i with
  | nil => simp at h
  | cons b t ih =>
    cases i with
    | zero => simp at h; simp [h]
    | succ i => simp at h; simp [ih i h]

theorem getD_eq_getElem {α : Type} (l : List α) (i : Nat) (d : α) (h : i < l.length) :
    l.getD i d = l[i] := by
  rw [List.getD_eq_getElem?_getD, List.getElem?_eq_getElem h]
  rfl

theorem siftdownLoop_length : ∀ (fuel : Nat) (heap : List NoHuffman) (s pos : Nat)
    (item : NoHuffman), (siftdownLoop fuel heap s pos item).length = heap.length
  | 0, heap, s, pos, item => by simp [siftdownLoop]
  | fuel + 1, heap, s, pos, item => by
    simp only [siftdownLoop]
    split
    · split
      · rw [siftdownLoop_length fuel]
        simp
      · simp
    · simp

theorem siftdownLoop_perm : ∀ (fuel : Nat) (heap : List NoHuffman) (s pos : Nat)
    (item : NoHuffman), pos < heap.length →
    List.Perm (siftdownLoop fuel heap s pos item) (heap.set pos item)
  | 0, heap, s, pos, item, _ => List.Perm.refl _
  | fuel + 1, heap, s, pos, item, hpos => by
    simp only [siftdownLoop]
    split
    · rename_i hs
      split
      · rename_i hlt
        have hppos : (pos - 1) / 2 < pos := by omega
        have hpl : (pos - 1) / 2 < heap.length := lt_trans hppos hpos
        have hgd : heap.getD ((pos - 1) / 2) item = heap[(pos - 1) / 2] :=
          getD_eq_getElem _ _ _ hpl
        have hrec := siftdownLoop_perm fuel (heap.set pos (heap.getD ((pos - 1) / 2) item))
          s ((pos - 1) / 2) item (by simpa using hpl)
        refine hrec.trans ?_
        rw [hgd]
        exact set_set_perm heap pos ((pos - 1) / 2) item hpos hpl (by omega)
      · exact List.Perm.refl _
    · exact List.Perm.refl _

theorem set_append_last {α : Type} (l : List α) (x v : α) :
    (l ++ [x]).set l.length v = l ++ [v] := by
  induction l with
  | nil => rfl
  | cons a t ih => simpa using ih

theorem length_heappush (heap : List NoHuffman) (item : NoHuffman) :
    (heappush heap item).length = heap.length + 1 := by
  simp [heappush, siftdownLoop_length]

theorem heappush_perm (heap : List NoHuffman) (item : NoHuffman) :
    List.Perm (heappush heap item) (item :: heap) := by
  have h1 := siftdownLoop_perm heap.length (heap ++ [item]) 0 heap.length item
    (by simp)
  rw [set_append_last] at h1
  exact h1.trans (List.perm_append_singleton _ _)

theorem siftupLoop_length : ∀ (fuel : Nat) (heap : List NoHuffman) (pos : Nat)
    (item : NoHuffman), (siftupLoop fuel heap pos item).1.length = heap.length
  | 0, heap, pos, item => by simp [siftupLoop]
  | fuel + 1, heap, pos, item => by
    simp only [siftupLoop]
    split
    · rw [siftupLoop_length fuel]
      simp
    · simp

theorem siftupLoop_facts : ∀ (fuel : Nat) (heap : List NoHuffman) (pos : Nat)
    (item : NoHuffman), pos < heap.length →
    List.Perm (siftupLoop fuel heap pos item).1 (heap.set pos item) ∧
      (siftupLoop fuel heap pos item).2 < heap.length ∧
      (siftupLoop fuel heap pos item).1[(siftupLoop fuel heap pos item).2]? = some item
  | 0, heap, pos, item, hpos => by
    simp only [siftupLoop]
    refine ⟨List.Perm.refl _, by simpa using hpos, ?_⟩
    rw [List.getElem?_eq_getElem (by simpa using hpos)]
    simp
  | fuel + 1, heap, pos, item, hpos => by
    simp only [siftupLoop]
    split
    · rename_i hchild
      set cp := if 2 * pos + 1 + 1 < heap.length ∧
          ¬(heap.getD (2 * pos + 1) item).ltFreq (heap.getD (2 * pos + 1 + 1) item) then
          2 * pos + 1 + 1
        else 2 * pos + 1 with hcp
      have hcpl : cp < heap.length := by
        rw [hcp]; split <;> omega
      have hcpne : pos ≠ cp := by rw [hcp]; split <;> omega
      have hrec := siftupLoop_facts fuel (heap.set pos (heap.getD cp item)) cp item
        (by simpa using hcpl)
      refine ⟨?_, ?_, ?_⟩
      · refine hrec.1.trans ?_
        rw [getD_eq_getElem _ _ _ hcpl]
        exact set_set_perm heap pos cp item hpos hcpl hcpne
      · have := hrec.2.1
        simpa using this
      · exact hrec.2.2
    · refine ⟨List.Perm.refl _, hpos, ?_⟩
      rw [List.getElem?_eq_getElem (by simpa using hpos)]
      simp

theorem siftup_length (heap : List NoHuffman) (pos : Nat) :
    (siftup heap pos).length = heap.length := by
  simp [siftup, siftdownLoop_length, siftupLoop_length]

theorem siftup_perm (heap : List NoHuffman) (pos : Nat) (hpos : pos < heap.length) :
    List.Perm (siftup heap pos) heap := by
  have hfacts := siftupLoop_facts heap.length heap pos
    (heap.getD pos (NoHuffman.mk none 0 none none)) hpos
  have hlen := siftupLoop_length heap.length heap pos
    (heap.getD pos (NoHuffman.mk none 0 none none))
  have hd := siftdownLoop_perm
    (siftupLoop heap.length heap pos (heap.getD pos (NoHuffman.mk none 0 none none))).2
    (siftupLoop heap.length heap pos (heap.getD pos (NoHuffman.mk none 0 none none))).1
    pos
    (siftupLoop heap.length heap pos (heap.getD pos (NoHuffman.mk none 0 none none))).2
    (heap.getD pos (NoHuffman.mk none 0 none none))
    (by rw [hlen]; exact hfacts.2.1)
  show List.Perm (siftdownLoop _ _ _ _ _) heap
  refine hd.trans ?_
  rw [set_of_getElem? _ _ _ hfacts.2.2]
  refine hfacts.1.trans ?_
  rw [getD_eq_getElem _ _ _ hpos, set_of_getElem? _ _ _ (List.getElem?_eq_getElem hpos)]

theorem heappop_eq_none_iff (heap : List NoHuffman) :
    heappop heap = none ↔ heap = [] := by
  constructor
  · intro h
    by_contra hne
    rw [heappop, List.getLast?_eq_getLast heap hne] at h
    rcases hd : heap.dropLast with _ | ⟨y, xs⟩ <;> rw [hd] at h <;> simp at h
  · intro h
    subst h
    rfl

theorem heappop_perm (heap : List NoHuffman) (x : NoHuffman) (h2 : List NoHuffman)
    (h : heappop heap = some (x, h2)) :
    List.Perm heap (x :: h2) ∧ h2.length + 1 = heap.length := by
  have hne : heap ≠ [] := by
    intro he
    subst he
    simp [heappop] at h
  rw [heappop, List.getLast?_eq_getLast heap hne] at h
  have hsplit := List.dropLast_concat_getLast hne
  rcases hd : heap.dropLast with _ | ⟨y, xs⟩
  · rw [hd] at h
    simp at h
    rw [hd] at hsplit
    simp at hsplit
    constructor
    · rw [← hsplit, h.1, h.2]
    · rw [← hsplit, ← h.2]
      rfl
  · rw [hd] at h
    simp at h
    rw [hd] at hsplit
    have hlen0 : 0 < (heap.getLast hne :: xs).length := by simp
    have hsp := siftup_perm (heap.getLast hne :: xs) 0 hlen0
    constructor
    · rw [← hsplit, ← h.1, ← h.2]
      exact ((List.perm_append_singleton _ _).cons y).trans (hsp.symm.cons y)
    · have hlenq := congrArg List.length hsplit
      simp [List.length_append] at hlenq
      rw [← h.2, siftup_length]
      simp
      omega

/-! ### Dictionary and frequency-table lemmas -/

theorem bump_keys_mem : ∀ (d : List (Char × Nat)) (c x : Char),
    x ∈ (bump d c).map Prod.fst ↔ (x ∈ d.map Prod.fst ∨ x = c)
  | [], c, x => by simp [bump]
  | (k, v) :: rest, c, x => by
    simp only [bump]
    split
    · rename_i hk
      subst hk
      simp [or_assoc, or_comm]
    · simp only [List.map_cons, List.mem_cons, bump_keys_mem rest c x]
      tauto

theorem bump_keys_nodup : ∀ (d : List (Char × Nat)) (c : Char),
    (d.map Prod.fst).Nodup → ((bump d c).map Prod.fst).Nodup
  | [], c, _ => by simp [bump]
  | (k, v) :: rest, c, h => by
    simp only [bump]
    split
    · simpa using h
    · rename_i hk
      simp only [List.map_cons, List.nodup_cons] at h ⊢
      refine ⟨?_, bump_keys_nodup rest c h.2⟩
      rw [bump_keys_mem]
      push_neg
      exact ⟨h.1, fun hkc => hk hkc⟩

theorem foldl_bump_keys_nodup : ∀ (texto : List Char) (d : List (Char × Nat)),
    (d.map Prod.fst).Nodup → ((texto.foldl bump d).map Prod.fst).Nodup
  | [], d, h => h
  | c :: rest, d, h => foldl_bump_keys_nodup rest (bump d c) (bump_keys_nodup d c h)

theorem foldl_bump_keys_mem : ∀ (texto : List Char) (d : List (Char × Nat)) (x : Char),
    x ∈ ((texto.foldl bump d).map Prod.fst) ↔ (x ∈ d.map Prod.fst ∨ x ∈ texto)
  | [], d, x => by simp
  | c :: rest, d, x => by
    simp only [List.foldl_cons, foldl_bump_keys_mem rest (bump d c) x, bump_keys_mem]
    simp only [List.mem_cons]
    tauto

theorem frequencias_keys_nodup (texto : List Char) :
    ((frequencias texto).map Prod.fst).Nodup :=
  foldl_bump_keys_nodup texto [] (by simp)

theorem frequencias_keys_mem (texto : List Char) (x : Char) :
    x ∈ (frequencias texto).map Prod.fst ↔ x ∈ texto := by
  rw [frequencias, foldl_bump_keys_mem]
  simp

theorem frequencias_ne_nil (texto : List Char) (h : texto ≠ []) :
    frequencias texto ≠ [] := by
  rcases texto with _ | ⟨c, rest⟩
  · exact absurd rfl h
  · intro hfr
    have := (frequencias_keys_mem (c :: rest) c).2 (by simp)
    rw [hfr] at this
    simp at this

theorem foldl_bump_const : ∀ (texto : List Char) (c : Char) (n : Nat),
    (∀ x ∈ texto, x = c) →
    texto.foldl bump [(c, n)] = [(c, n + texto.length)]
  | [], c, n, _ => by simp
  | x :: rest, c, n, h => by
    have hx : x = c := h x (by simp)
    subst hx
    have hb : bump [(x, n)] x = [(x, n + 1)] := by simp [bump]
    rw [List.foldl_cons, hb, foldl_bump_const rest x (n + 1) (fun y hy => h y (by simp [hy]))]
    simp only [List.length_cons]
    have harith : n + 1 + rest.length = n + (rest.length + 1) := by omega
    rw [harith]

theorem frequencias_const (texto : List Char) (c : Char) (hne : texto ≠ [])
    (hall : ∀ x ∈ texto, x = c) :
    frequencias texto = [(c, texto.length)] := by
  rcases texto with _ | ⟨x, rest⟩
  · exact absurd rfl hne
  · have hx : x = c := hall x (by simp)
    subst hx
    show (x :: rest).foldl bump [] = _
    simp only [List.foldl_cons, bump]
    rw [foldl_bump_const rest x 1 (fun y hy => hall y (by simp [hy]))]
    simp [Nat.add_comm]

theorem dictSet_not_mem_append : ∀ (d : List (Char × List Char)) (c : Char)
    (v : List Char), c ∉ d.map Prod.fst → dictSet d c v = d ++ [(c, v)]
  | [], c, v, _ => rfl
  | (k, w) :: rest, c, v, h => by
    simp only [List.map_cons, List.mem_cons] at h
    push_neg at h
    have hkc : ¬(k = c) := fun hk => h.1 (Eq.symm hk)
    simp only [dictSet, if_neg hkc]
    rw [dictSet_not_mem_append rest c v h.2]
    simp

theorem dictGetD_mem (d : List (Char × List Char)) (c : Char) (dflt : List Char)
    (h : c ∈ d.map Prod.fst) : (c, dictGetD d c dflt) ∈ d := by
  rcases hf : d.find? (fun p => p.1 = c) with _ | p
  · rw [List.find?_eq_none] at hf
    simp only [List.mem_map] at h
    obtain ⟨p, hp, hpc⟩ := h
    exact absurd (by simp [hpc]) (hf p hp)
  · have hmem := List.mem_of_find?_eq_some hf
    have hpc : p.1 = c := by
      have := List.find?_some hf
      simpa using this
    have hval : dictGetD d c dflt = p.2 := by
      rw [dictGetD, hf]
    rw [hval, ← hpc]
    simpa using hmem

/-! ### Code-table facts derived from the tree structure -/

theorem codeListN_keys (t : NoHuffman) : ∀ cur, (codeListN t cur).map Prod.fst = symsN t := by
  induction t using NoHuffman.ind with
  | h c f l r ihl ihr =>
    intro cur
    cases c with
    | some c0 => simp [codeListN, symsN]
    | none =>
      cases l with
      | none =>
        cases r with
        | none => simp [codeListN, symsN]
        | some b => simp [codeListN, symsN, ihr b rfl]
      | some a =>
        cases r with
        | none => simp [codeListN, symsN, ihl a rfl]
        | some b => simp [codeListN, symsN, ihl a rfl, ihr b rfl]

theorem codeListN_shape (t : NoHuffman) : ∀ cur p, p ∈ codeListN t cur →
    ∃ s, p.2 = cur ++ s ∧ ∀ b ∈ s, b = '0' ∨ b = '1' := by
  induction t using NoHuffman.ind with
  | h c f l r ihl ihr =>
    intro cur p hp
    cases c with
    | some c0 =>
      simp only [codeListN, List.mem_singleton] at hp
      subst hp
      exact ⟨[], by simp⟩
    | none =>
      have hleft : ∀ a, l = some a → p ∈ codeListN a (cur ++ ['0']) →
          ∃ s, p.2 = cur ++ s ∧ ∀ b ∈ s, b = '0' ∨ b = '1' := by
        intro a ha hm
        obtain ⟨s, hs, hbit⟩ := ihl a ha (cur ++ ['0']) p hm
        refine ⟨'0' :: s, ?_, ?_⟩
        · rw [hs, List.append_assoc, List.singleton_append]
        · intro b hb
          rcases List.mem_cons.1 hb with hb | hb
          · exact Or.inl hb
          · exact hbit b hb
      have hright : ∀ b0, r = some b0 → p ∈ codeListN b0 (cur ++ ['1']) →
          ∃ s, p.2 = cur ++ s ∧ ∀ b ∈ s, b = '0' ∨ b = '1' := by
        intro a ha hm
        obtain ⟨s, hs, hbit⟩ := ihr a ha (cur ++ ['1']) p hm
        refine ⟨'1' :: s, ?_, ?_⟩
        · rw [hs, List.append_assoc, List.singleton_append]
        · intro b hb
          rcases List.mem_cons.1 hb with hb | hb
          · exact Or.inr hb
          · exact hbit b hb
      cases l with
      | none =>
        cases r with
        | none => simp [codeListN] at hp
        | some b0 =>
          simp only [codeListN, List.nil_append] at hp
          exact hright b0 rfl hp
      | some a =>
        cases r with
        | none =>
          simp only [codeListN, List.append_nil] at hp
          exact hleft a rfl hp
        | some b0 =>
          simp only [codeListN, List.mem_append] at hp
          rcases hp with hp | hp
          · exact hleft a rfl hp
          · exact hright b0 rfl hp

theorem codeListN_pf (t : NoHuffman) : ∀ cur p q, p ∈ codeListN t cur →
    q ∈ codeListN t cur → p.2 <+: q.2 → p = q := by
  induction t using NoHuffman.ind with
  | h c f l r ihl ihr =>
    intro cur p q hp hq hpre
    cases c with
    | some c0 =>
      simp only [codeListN, List.mem_singleton] at hp hq
      rw [hp, hq]
    | none =>
      have hcross : ∀ a b0, l = some a → r = some b0 →
          p ∈ codeListN a (cur ++ ['0']) → q ∈ codeListN b0 (cur ++ ['1']) → p = q := by
        intro a b0 ha hb hpa hqb
        obtain ⟨s, hs, _⟩ := codeListN_shape a (cur ++ ['0']) p hpa
        obtain ⟨s', hs', _⟩ := codeListN_shape b0 (cur ++ ['1']) q hqb
        rw [hs, hs', List.append_assoc, List.append_assoc, List.singleton_append,
          List.singleton_append, List.prefix_append_right_inj,
          List.cons_prefix_cons] at hpre
        exact absurd hpre.1 (by decide)
      have hcross' : ∀ a b0, l = some a → r = some b0 →
          p ∈ codeListN b0 (cur ++ ['1']) → q ∈ codeListN a (cur ++ ['0']) → p = q := by
        intro a b0 ha hb hpa hqb
        obtain ⟨s, hs, _⟩ := codeListN_shape b0 (cur ++ ['1']) p hpa
        obtain ⟨s', hs', _⟩ := codeListN_shape a (cur ++ ['0']) q hqb
        rw [hs, hs', List.append_assoc, List.append_assoc, List.singleton_append,
          List.singleton_append, List.prefix_append_right_inj,
          List.cons_prefix_cons] at hpre
        exact absurd hpre.1 (by decide)
      cases l with
      | none =>
        cases r with
        | none => simp [codeListN] at hp
        | some b0 =>
          simp only [codeListN, List.nil_append] at hp hq
          exact ihr b0 rfl (cur ++ ['1']) p q hp hq hpre
      | some a =>
        cases r with
        | none =>
          simp only [codeListN, List.append_nil] at hp hq
          exact ihl a rfl (cur ++ ['0']) p q hp hq hpre
        | some b0 =>
          simp only [codeListN, List.mem_append] at hp hq
          rcases hp with hp | hp <;> rcases hq with hq | hq
          · exact ihl a rfl (cur ++ ['0']) p q hp hq hpre
          · exact hcross a b0 rfl rfl hp hq
          · exact hcross' a b0 rfl rfl hp hq
          · exact ihr b0 rfl (cur ++ ['1']) p q hp hq hpre

theorem codeListN_internal_long (f : Nat) (l r : Option NoHuffman) :
    ∀ cur p, p ∈ codeListN (.mk none f l r) cur → cur.length < p.2.length := by
  intro cur p hp
  have hleft : ∀ a, p ∈ codeListN a (cur ++ ['0']) → cur.length < p.2.length := by
    intro a hm
    obtain ⟨s, hs, _⟩ := codeListN_shape a (cur ++ ['0']) p hm
    rw [hs]
    simp [List.length_append]
  have hright : ∀ a, p ∈ codeListN a (cur ++ ['1']) → cur.length < p.2.length := by
    intro a hm
    obtain ⟨s, hs, _⟩ := codeListN_shape a (cur ++ ['1']) p hm
    rw [hs]
    simp [List.length_append]
  cases l with
  | none =>
    cases r with
    | none => simp [codeListN] at hp
    | some b0 =>
      simp only [codeListN, List.nil_append] at hp
      exact hright b0 hp
  | some a =>
    cases r with
    | none =>
      simp only [codeListN, List.append_nil] at hp
      exact hleft a hp
    | some b0 =>
      simp only [codeListN, List.mem_append] at hp
      rcases hp with hp | hp
      · exact hleft a hp
      · exact hright b0 hp

theorem gerarNo_eq_append (t : NoHuffman) : ∀ cur cods, (symsN t).Nodup →
    (∀ x ∈ symsN t, x ∉ cods.map Prod.fst) →
    gerarNo t cur cods = cods ++ codeListN t cur := by
  induction t using NoHuffman.ind with
  | h c f l r ihl ihr =>
    intro cur cods hnd hdis
    cases c with
    | some c0 =>
      simp only [symsN] at hdis
      simp only [gerarNo, codeListN]
      exact dictSet_not_mem_append cods c0 cur (hdis c0 (by simp))
    | none =>
      cases l with
      | none =>
        cases r with
        | none => simp [gerarNo, codeListN]
        | some b0 =>
          simp only [symsN, List.nil_append] at hnd hdis
          simp only [gerarNo, codeListN, List.nil_append]
          exact ihr b0 rfl (cur ++ ['1']) cods hnd hdis
      | some a =>
        cases r with
        | none =>
          simp only [symsN, List.append_nil] at hnd hdis
          simp only [gerarNo, codeListN, List.append_nil]
          exact ihl a rfl (cur ++ ['0']) cods hnd hdis
        | some b0 =>
          simp only [symsN] at hnd hdis
          rw [List.nodup_append] at hnd
          simp only [gerarNo]
          rw [ihl a rfl (cur ++ ['0']) cods hnd.1
            (fun x hx => hdis x (List.mem_append.2 (Or.inl hx)))]
          rw [ihr b0 rfl (cur ++ ['1']) (cods ++ codeListN a (cur ++ ['0'])) hnd.2.1 ?_]
          · simp [codeListN, List.append_assoc]
          · intro x hx
            rw [List.map_append, List.mem_append]
            push_neg
            refine ⟨hdis x (List.mem_append.2 (Or.inr hx)), ?_⟩
            rw [codeListN_keys]
            exact fun hmem => hnd.2.2 hmem hx

/-! ### The merge loop preserves the heap invariant -/

theorem heapSyms_cons (t : NoHuffman) (l : List NoHuffman) :
    heapSyms (t :: l) = symsN t ++ heapSyms l := by
  simp [heapSyms]

theorem heapSyms_perm {l l' : List NoHuffman} (h : List.Perm l l') :
    List.Perm (heapSyms l) (heapSyms l') :=
  (h.map symsN).flatten

theorem heapInv_perm {l l' : List NoHuffman} (h : List.Perm l l') (hi : heapInv l) :
    heapInv l' := by
  refine ⟨fun t ht => hi.1 t (h.mem_iff.2 ht), ?_⟩
  exact ((heapSyms_perm h).nodup_iff).1 hi.2

theorem huffLoop_fixed : ∀ (fuel : Nat) (l : List NoHuffman), l.length ≤ 1 →
    huffLoop fuel l = l
  | 0, l, _ => rfl
  | fuel + 1, l, h => by
    simp only [huffLoop]
    rw [if_neg (by omega)]

theorem symsN_merge (no1 no2 : NoHuffman) (f : Nat) :
    symsN (NoHuffman.mk none f (some no1) (some no2)) = symsN no1 ++ symsN no2 := by
  simp [symsN]

theorem wfTree_merge (no1 no2 : NoHuffman) (h1 : wfTree no1) (h2 : wfTree no2) :
    wfTree (NoHuffman.mk none (no1.freq + no2.freq) (some no1) (some no2)) := by
  simp only [wfTree]
  exact ⟨by trivial, h1, h2⟩

theorem huffLoop_spec : ∀ (fuel : Nat) (heap : List NoHuffman),
    heap.length ≤ fuel → 2 ≤ heap.length → heapInv heap →
    ∃ t, huffLoop fuel heap = [t] ∧ wfTree t ∧ t.char = none ∧
      List.Perm (symsN t) (heapSyms heap)
  | 0, heap, hf, h2, _ => by omega
  | fuel + 1, heap, hf, h2, hinv => by
    simp only [huffLoop]
    rw [if_pos (by omega)]
    rcases hp1 : heappop heap with _ | ⟨no1, h1⟩
    · rw [heappop_eq_none_iff] at hp1
      subst hp1
      simp at h2
    · obtain ⟨hperm1, hlen1⟩ := heappop_perm heap no1 h1 hp1
      rcases hp2 : heappop h1 with _ | ⟨no2, hh2⟩
      · rw [heappop_eq_none_iff] at hp2
        subst hp2
        simp at hlen1
        omega
      · obtain ⟨hperm2, hlen2⟩ := heappop_perm h1 no2 hh2 hp2
        show ∃ t, (match heappop h1 with
          | some (no2, h2) => huffLoop fuel (heappush h2
              (NoHuffman.mk none (no1.freq + no2.freq) (some no1) (some no2)))
          | none => heap) = [t] ∧
          wfTree t ∧ t.char = none ∧ List.Perm (symsN t) (heapSyms heap)
        rw [hp2]
        show ∃ t, huffLoop fuel (heappush hh2
          (NoHuffman.mk none (no1.freq + no2.freq) (some no1) (some no2))) = [t] ∧
          wfTree t ∧ t.char = none ∧ List.Perm (symsN t) (heapSyms heap)
        have hpermall : List.Perm heap (no1 :: no2 :: hh2) :=
          hperm1.trans (hperm2.cons no1)
        have hinv' : heapInv (no1 :: no2 :: hh2) := heapInv_perm hpermall hinv
        have hwf1 : wfTree no1 := hinv'.1 no1 (by simp)
        have hwf2 : wfTree no2 := hinv'.1 no2 (by simp)
        have hpushperm := heappush_perm hh2
          (NoHuffman.mk none (no1.freq + no2.freq) (some no1) (some no2))
        have hsymsnew : List.Perm
            (heapSyms (heappush hh2
              (NoHuffman.mk none (no1.freq + no2.freq) (some no1) (some no2))))
            (heapSyms heap) := by
          refine (heapSyms_perm hpushperm).trans ?_
          rw [heapSyms_cons, symsN_merge]
          refine List.Perm.trans ?_ (heapSyms_perm hpermall.symm)
          rw [heapSyms_cons, heapSyms_cons, List.append_assoc]
        have hinvnew : heapInv (heappush hh2
            (NoHuffman.mk none (no1.freq + no2.freq) (some no1) (some no2))) := by
          refine heapInv_perm hpushperm.symm ⟨?_, ?_⟩
          · intro t ht
            rcases List.mem_cons.1 ht with ht | ht
            · subst ht
              exact wfTree_merge no1 no2 hwf1 hwf2
            · exact hinv'.1 t (by simp [ht])
          · rw [heapSyms_cons, symsN_merge]
            have := hinv'.2
            rw [heapSyms_cons, heapSyms_cons] at this
            rw [List.append_assoc]
            exact this
        have hlennew : (heappush hh2
            (NoHuffman.mk none (no1.freq + no2.freq) (some no1) (some no2))).length =
            heap.length - 1 := by
          rw [length_heappush]
          omega
        by_cases hsz : heap.length = 2
        · have hlen1' : (heappush hh2
              (NoHuffman.mk none (no1.freq + no2.freq) (some no1) (some no2))).length = 1 := by
            omega
          rw [huffLoop_fixed fuel _ (by omega)]
          rcases hsingle : heappush hh2
              (NoHuffman.mk none (no1.freq + no2.freq) (some no1) (some no2)) with _ | ⟨t, rest⟩
          · rw [hsingle] at hlen1'
            simp at hlen1'
          · have hrest : rest = [] := by
              rw [hsingle] at hlen1'
              simp at hlen1'
              exact hlen1'
            subst hrest
            have hps : List.Perm
                (NoHuffman.mk none (no1.freq + no2.freq) (some no1) (some no2) :: hh2)
                [t] := by
              rw [← hsingle]
              exact hpushperm.symm
            have hconseq := List.perm_singleton.1 hps
            have ht : t = NoHuffman.mk none (no1.freq + no2.freq) (some no1) (some no2) := by
              have := List.cons.injEq _ _ _ _ ▸ hconseq
              exact (List.cons.inj hconseq).1.symm
            refine ⟨t, rfl, ?_, ?_, ?_⟩
            · rw [ht]
              exact wfTree_merge no1 no2 hwf1 hwf2
            · rw [ht]
              rfl
            · have hsymone : List.Perm (symsN t)
                  (heapSyms (heappush hh2
                    (NoHuffman.mk none (no1.freq + no2.freq) (some no1) (some no2)))) := by
                rw [hsingle, heapSyms_cons]
                simp [heapSyms]
              exact hsymone.trans hsymsnew
        · have hrec := huffLoop_spec fuel
            (heappush hh2 (NoHuffman.mk none (no1.freq + no2.freq) (some no1) (some no2)))
            (by omega) (by omega) hinvnew
          obtain ⟨t, heq, hwf, hchar, hsyms⟩ := hrec
          exact ⟨t, heq, hwf, hchar, hsyms.trans hsymsnew⟩

/-! ### What `construir_arvore` returns -/

theorem foldl_heappush_perm : ∀ (fr : List (Char × Nat)) (h0 : List NoHuffman),
    List.Perm (fr.foldl (fun h p => heappush h (NoHuffman.mk (some p.1) p.2 none none)) h0)
      (h0 ++ fr.map (fun p => NoHuffman.mk (some p.1) p.2 none none))
  | [], h0 => by simp
  | p :: rest, h0 => by
    simp only [List.foldl_cons, List.map_cons]
    refine (foldl_heappush_perm rest
      (heappush h0 (NoHuffman.mk (some p.1) p.2 none none))).trans ?_
    refine ((heappush_perm h0 _).append_right _).trans ?_
    exact List.perm_middle.symm

theorem heapSyms_leaves (fr : List (Char × Nat)) :
    heapSyms (fr.map (fun p => NoHuffman.mk (some p.1) p.2 none none)) =
      fr.map Prod.fst := by
  induction fr with
  | nil => rfl
  | cons p rest ih =>
    simp only [List.map_cons, heapSyms_cons, ih]
    simp [symsN]

theorem heappop_singleton (t : NoHuffman) : heappop [t] = some (t, []) := rfl

theorem wfTree_leaf (c : Char) (n : Nat) :
    wfTree (NoHuffman.mk (some c) n none none) := by
  simp [wfTree]

theorem construir_arvore_spec (texto : List Char) (h : texto ≠ []) :
    ∃ raiz, (construir_arvore texto).1 = some raiz ∧ wfTree raiz ∧
      List.Perm (symsN raiz) ((frequencias texto).map Prod.fst) ∧
      ((∃ c n, raiz = NoHuffman.mk (some c) n none none ∧
          (construir_arvore texto).2 = [(c, ['0'])]) ∨
        (raiz.char = none ∧ (construir_arvore texto).2 = codeListN raiz [])) := by
  have hfr : frequencias texto ≠ [] := frequencias_ne_nil texto h
  have hperm0 : List.Perm
      ((frequencias texto).foldl
        (fun h p => heappush h (NoHuffman.mk (some p.1) p.2 none none)) [])
      ((frequencias texto).map (fun p => NoHuffman.mk (some p.1) p.2 none none)) := by
    simpa using foldl_heappush_perm (frequencias texto) []
  have hlen0 : ((frequencias texto).foldl
      (fun h p => heappush h (NoHuffman.mk (some p.1) p.2 none none)) []).length =
      (frequencias texto).length := by
    rw [hperm0.length_eq]
    simp
  have hca : construir_arvore texto =
      (let heap := (frequencias texto).foldl
        (fun h p => heappush h (NoHuffman.mk (some p.1) p.2 none none)) []
      if heap.length = 1 then
        match heappop heap with
        | some (raiz, _) =>
          match raiz.char with
          | some c => (some raiz, [(c, ['0'])])
          | none => (some raiz, [])
        | none => (none, [])
      else
        match heappop (huffLoop heap.length heap) with
        | some (raiz, _) => (some raiz, gerar_codigos (some raiz) [] [])
        | none => (none, [])) := by
    rw [construir_arvore]
    rw [if_neg h]
  by_cases h1 : ((frequencias texto).foldl
      (fun h p => heappush h (NoHuffman.mk (some p.1) p.2 none none)) []).length = 1
  · -- single-symbol branch
    have hfl : (frequencias texto).length = 1 := by rw [← hlen0]; exact h1
    rcases hfq : frequencias texto with _ | ⟨p0, frrest⟩
    · exact absurd hfq hfr
    · have hrest : frrest = [] := by
        rw [hfq] at hfl
        simp at hfl
        exact hfl
      subst hrest
      have hheapeq : (frequencias texto).foldl
          (fun h p => heappush h (NoHuffman.mk (some p.1) p.2 none none)) [] =
          [NoHuffman.mk (some p0.1) p0.2 none none] := by
        rw [hfq]
        rfl
      rw [hca]
      simp only [hheapeq]
      refine ⟨NoHuffman.mk (some p0.1) p0.2 none none, ?_, wfTree_leaf p0.1 p0.2, ?_, ?_⟩
      · simp [heappop_singleton, NoHuffman.char]
      · simp [symsN]
      · left
        refine ⟨p0.1, p0.2, rfl, ?_⟩
        simp [heappop_singleton, NoHuffman.char]
  · -- merge-loop branch
    have hfl2 : 2 ≤ (frequencias texto).length := by
      have : (frequencias texto).length ≠ 0 := by
        intro hz
        exact hfr (List.eq_nil_of_length_eq_zero hz)
      omega
    have hinv0 : heapInv ((frequencias texto).foldl
        (fun h p => heappush h (NoHuffman.mk (some p.1) p.2 none none)) []) := by
      refine heapInv_perm hperm0.symm ⟨?_, ?_⟩
      · intro t ht
        obtain ⟨p, _, hp⟩ := List.mem_map.1 ht
        rw [← hp]
        exact wfTree_leaf p.1 p.2
      · rw [heapSyms_leaves]
        exact frequencias_keys_nodup texto
    obtain ⟨t, hloop, hwf, hchar, hsyms⟩ := huffLoop_spec
      ((frequencias texto).foldl
        (fun h p => heappush h (NoHuffman.mk (some p.1) p.2 none none)) []).length
      ((frequencias texto).foldl
        (fun h p => heappush h (NoHuffman.mk (some p.1) p.2 none none)) [])
      (le_refl _) (by omega) hinv0
    have hsymsfr : List.Perm (symsN t) ((frequencias texto).map Prod.fst) := by
      refine hsyms.trans ?_
      refine (heapSyms_perm hperm0).trans ?_
      rw [heapSyms_leaves]
    have hnodupt : (symsN t).Nodup :=
      (hsymsfr.nodup_iff).2 (frequencias_keys_nodup texto)
    rw [hca]
    simp only [hloop]
    refine ⟨t, ?_, hwf, hsymsfr, ?_⟩
    · rw [if_neg h1]
      simp [heappop_singleton]
    · right
      refine ⟨hchar, ?_⟩
      rw [if_neg h1]
      simp only [heappop_singleton]
      show gerar_codigos (some t) [] [] = codeListN t []
      rw [gerar_codigos]
      rw [gerarNo_eq_append t [] [] hnodupt (by simp)]
      simp

/-! ### Greedy longest-match decoding inverts encoding on prefix-free tables -/

theorem foldl_choose_all_eq (p : Char × List Char) : ∀ (l : List (Char × List Char))
    (acc : Option (Char × List Char)), (∀ q ∈ l, q = p) →
    (acc = some p ∨ (acc = none ∧ l ≠ [])) →
    (l.foldl (fun best q => match best with
      | none => some q
      | some r => if r.2.length < q.2.length then some q else some r) acc) = some p
  | [], acc, _, hacc => by
    rcases hacc with hacc | ⟨_, hne⟩
    · simpa using hacc
    · exact absurd rfl hne
  | q :: rest, acc, hall, hacc => by
    have hq : q = p := hall q (by simp)
    subst hq
    rcases hacc with hacc | ⟨hacc, _⟩ <;> subst hacc <;>
      simp only [List.foldl_cons] <;>
      refine foldl_choose_all_eq q rest _ (fun x hx => hall x (by simp [hx]))
        (Or.inl ?_) <;>
      simp

theorem longestMatch_unique (cods : List (Char × List Char)) (c : Char) (w : List Char)
    (bits : List Char)
    (huniq : ∀ q ∈ cods, q.2 ≠ [] → q.2 <+: bits → q = (c, w))
    (hmem : (c, w) ∈ cods) (hwne : w ≠ []) (hw : w <+: bits) :
    longestMatch cods bits = some (c, w) := by
  rw [longestMatch]
  have hfilter : ∀ q ∈ cods.filter (fun p => !p.2.isEmpty && p.2.isPrefixOf bits),
      q = (c, w) := by
    intro q hq
    rw [List.mem_filter] at hq
    have hb := hq.2
    rw [Bool.and_eq_true, Bool.not_eq_true'] at hb
    have hqne : q.2 ≠ [] := by
      intro hqe
      rw [hqe] at hb
      simp at hb
    have hqpre : q.2 <+: bits := by
      have := hb.2
      rwa [List.isPrefixOf_iff_prefix] at this
    exact huniq q hq.1 hqne hqpre
  have hmemf : (c, w) ∈ cods.filter (fun p => !p.2.isEmpty && p.2.isPrefixOf bits) := by
    rw [List.mem_filter]
    refine ⟨hmem, ?_⟩
    rw [Bool.and_eq_true, Bool.not_eq_true']
    constructor
    · simpa [List.isEmpty_iff] using hwne
    · rwa [List.isPrefixOf_iff_prefix]
  exact foldl_choose_all_eq (c, w) _ none hfilter
    (Or.inr ⟨rfl, List.ne_nil_of_mem hmemf⟩)

theorem decodeGreedy_nil (fuel : Nat) (cods : List (Char × List Char)) :
    decodeGreedy fuel cods [] = some [] := by
  cases fuel <;> rfl

theorem comprimir_nil (cods : List (Char × List Char)) : comprimir [] cods = [] := by
  by_cases hc : cods = [] <;> simp [comprimir, hc]

theorem comprimir_cons (c : Char) (texto : List Char) (cods : List (Char × List Char))
    (h : cods ≠ []) :
    comprimir (c :: texto) cods = dictGetD cods c [] ++ comprimir texto cods := by
  simp [comprimir, if_neg h]

theorem decode_comprimir (cods : List (Char × List Char))
    (hPF : ∀ p ∈ cods, ∀ q ∈ cods, p.2 <+: q.2 → p = q)
    (hne : ∀ p ∈ cods, p.2 ≠ []) :
    ∀ (texto : List Char) (fuel : Nat), (∀ ch ∈ texto, ch ∈ cods.map Prod.fst) →
    (comprimir texto cods).length ≤ fuel →
    decodeGreedy fuel cods (comprimir texto cods) = some texto
  | [], fuel, _, _ => by
    rw [comprimir_nil, decodeGreedy_nil]
  | c :: rest, fuel, hcov, hfuel => by
    have hc : c ∈ cods.map Prod.fst := hcov c (by simp)
    have hcne : cods ≠ [] := by
      intro hnil
      rw [hnil] at hc
      simp at hc
    have hmem : (c, dictGetD cods c []) ∈ cods := dictGetD_mem cods c [] hc
    have hwne : dictGetD cods c [] ≠ [] := hne _ hmem
    rw [comprimir_cons c rest cods hcne] at hfuel ⊢
    rcases hw : dictGetD cods c [] with _ | ⟨w0, wrest⟩
    · exact absurd hw hwne
    · rw [hw] at hfuel hmem
      have hfuel1 : 1 ≤ fuel := by
        simp [List.length_append] at hfuel
        omega
      rcases fuel with _ | f
      · omega
      · have hlm : longestMatch cods ((w0 :: wrest) ++ comprimir rest cods) =
            some (c, w0 :: wrest) := by
          refine longestMatch_unique cods c (w0 :: wrest) _ ?_ hmem (by simp)
            (List.prefix_append _ _)
        -- uniqueness of the match
          intro q hq hqne hqpre
          have hwpre : (w0 :: wrest) <+: ((w0 :: wrest) ++ comprimir rest cods) :=
            List.prefix_append _ _
          have hcomp := List.prefix_or_prefix_of_prefix hqpre hwpre
          rcases hcomp with hcomp | hcomp
          · exact hPF q hq (c, w0 :: wrest) hmem hcomp
          · exact (hPF (c, w0 :: wrest) hmem q hq hcomp).symm
        show (match longestMatch cods ((w0 :: wrest) ++ comprimir rest cods) with
          | none => none
          | some (c, w) => (decodeGreedy f cods
              (((w0 :: wrest) ++ comprimir rest cods).drop w.length)).map
              (fun r => c :: r)) = some (c :: rest)
        rw [hlm]
        show (decodeGreedy f cods
            (((w0 :: wrest) ++ comprimir rest cods).drop (w0 :: wrest).length)).map
            (fun r => c :: r) = some (c :: rest)
        rw [List.drop_left]
        rw [decode_comprimir cods hPF hne rest f
          (fun x hx => hcov x (by simp [hx]))
          (by simp [List.length_append] at hfuel; omega)]
        rfl

theorem decodeTable_comprimir (cods : List (Char × List Char))
    (hPF : ∀ p ∈ cods, ∀ q ∈ cods, p.2 <+: q.2 → p = q)
    (hne : ∀ p ∈ cods, p.2 ≠ [])
    (texto : List Char) (hcov : ∀ ch ∈ texto, ch ∈ cods.map Prod.fst) :
    decodeTable cods (comprimir texto cods) = some texto :=
  decode_comprimir cods hPF hne texto (comprimir texto cods).length hcov (le_refl _)

/-! ### The generated code table: nonempty binary codes, prefix-free, covering -/

theorem construir_arvore_table (texto : List Char) (h : texto ≠ []) :
    (∀ p ∈ (construir_arvore texto).2, p.2 ≠ []) ∧
    (∀ p ∈ (construir_arvore texto).2, ∀ q ∈ (construir_arvore texto).2,
      p.2 <+: q.2 → p = q) ∧
    ((construir_arvore texto).2.map Prod.fst).Nodup ∧
    (∀ x ∈ texto, x ∈ (construir_arvore texto).2.map Prod.fst) ∧
    (∀ p ∈ (construir_arvore texto).2, ∀ b ∈ p.2, b = '0' ∨ b = '1') := by
  obtain ⟨raiz, hfst, hwf, hsymsfr, hcase⟩ := construir_arvore_spec texto h
  rcases hcase with ⟨c, n, hraiz, htab⟩ | ⟨hchar, htab⟩
  · -- single-symbol table [(c, "0")]
    rw [htab]
    subst hraiz
    refine ⟨?_, ?_, ?_, ?_, ?_⟩
    · intro p hp
      simp only [List.mem_singleton] at hp
      subst hp
      simp
    · intro p hp q hq _
      simp only [List.mem_singleton] at hp hq
      rw [hp, hq]
    · simp
    · intro x hx
      have hxk : x ∈ (frequencias texto).map Prod.fst :=
        (frequencias_keys_mem texto x).2 hx
      have hxs : x ∈ symsN (NoHuffman.mk (some c) n none none) :=
        hsymsfr.mem_iff.2 hxk
      simp only [symsN, List.mem_singleton] at hxs
      simp [hxs]
    · intro p hp b hb
      simp only [List.mem_singleton] at hp
      subst hp
      simp only [List.mem_singleton] at hb
      exact Or.inl hb
  · -- multi-symbol table codeListN raiz []
    rw [htab]
    rcases raiz with ⟨c0, f0, l0, r0⟩
    have hc0 : c0 = none := hchar
    subst hc0
    refine ⟨?_, ?_, ?_, ?_, ?_⟩
    · intro p hp
      have := codeListN_internal_long f0 l0 r0 [] p hp
      intro hpe
      rw [hpe] at this
      simp at this
    · intro p hp q hq
      exact codeListN_pf _ [] p q hp hq
    · rw [codeListN_keys]
      exact (hsymsfr.nodup_iff).2 (frequencias_keys_nodup texto)
    · intro x hx
      have hxk : x ∈ (frequencias texto).map Prod.fst :=
        (frequencias_keys_mem texto x).2 hx
      rw [codeListN_keys]
      exact hsymsfr.mem_iff.2 hxk
    · intro p hp b hb
      obtain ⟨s, hs, hbit⟩ := codeListN_shape _ [] p hp
      rw [hs] at hb
      simp only [List.nil_append] at hb
      exact hbit b hb

/-! ### Well-formedness propagated to every node -/

theorem wfTree_allNodes (t : NoHuffman) (hwf : wfTree t) :
    ∀ n ∈ allNodesN t,
      (n.char = none → n.left ≠ none ∧ n.right ≠ none ∧
        n.freq = freqO n.left + freqO n.right) ∧
      (n.char ≠ none → n.left = none ∧ n.right = none) := by
  induction t using NoHuffman.ind with
  | h c f l r ihl ihr =>
    intro n hn
    cases c with
    | some c0 =>
      have hlr : l = none ∧ r = none := hwf
      rw [hlr.1, hlr.2] at hn
      simp only [allNodesN, List.append_nil, List.mem_singleton] at hn
      subst hn
      constructor
      · intro hcontra
        simp [NoHuffman.char] at hcontra
      · intro _
        exact ⟨rfl, rfl⟩
    | none =>
      rcases hl : l with _ | tl
      · rw [hl] at hwf
        rcases hr : r with _ | tr <;> rw [hr] at hwf <;> exact absurd hwf (by simp [wfTree])
      · rcases hr : r with _ | tr
        · rw [hl, hr] at hwf
          exact absurd hwf (by simp [wfTree])
        · rw [hl, hr] at hwf
          have hwf' : f = tl.freq + tr.freq ∧ wfTree tl ∧ wfTree tr := hwf
          rw [hl, hr] at hn
          simp only [allNodesN, List.mem_cons, List.mem_append] at hn
          rcases hn with hn | hn | hn
          · subst hn
            constructor
            · intro _
              refine ⟨by simp [NoHuffman.left], by simp [NoHuffman.right], ?_⟩
              simp only [NoHuffman.left, NoHuffman.right, NoHuffman.freq, freqO]
              exact hwf'.1
            · intro hcontra
              simp [NoHuffman.char] at hcontra
          · exact ihl tl hl hwf'.2.1 n hn
          · exact ihr tr hr hwf'.2.2 n hn

/-! ### Claim theorems -/

/-- C1: for every non-empty input, decoding the output of `comprimir`
with the table from `construir_arvore` by greedy longest-match
reproduces the input exactly. -/
theorem c1_roundtrip_decode (texto : List Char) (h : texto ≠ []) :
    decodeTable (construir_arvore texto).2
      (comprimir texto (construir_arvore texto).2) = some texto := by
  obtain ⟨hne, hPF, _, hcov, _⟩ := construir_arvore_table texto h
  exact decodeTable_comprimir _ hPF hne texto hcov

theorem c1_roundtrip_decode_witness :
    decodeTable (construir_arvore ['a', 'b', 'a']).2
      (comprimir ['a', 'b', 'a'] (construir_arvore ['a', 'b', 'a']).2) =
      some ['a', 'b', 'a'] :=
  c1_roundtrip_decode ['a', 'b', 'a'] (by decide)

/-- C3: in every generated table, codes of distinct symbols are never
prefixes of one another and never equal, every code is a nonempty string
of 0/1 characters, and no symbol occurs twice. -/
theorem c3_table_prefix_free (texto : List Char) (h : texto ≠ []) :
    (∀ p ∈ (construir_arvore texto).2, ∀ q ∈ (construir_arvore texto).2,
      p.1 ≠ q.1 → ¬p.2 <+: q.2 ∧ p.2 ≠ q.2) ∧
    (∀ p ∈ (construir_arvore texto).2, p.2 ≠ [] ∧ ∀ b ∈ p.2, b = '0' ∨ b = '1') ∧
    ((construir_arvore texto).2.map Prod.fst).Nodup := by
  obtain ⟨hne, hPF, hnodup, _, hbits⟩ := construir_arvore_table texto h
  refine ⟨?_, ?_, hnodup⟩
  · intro p hp q hq hpq
    constructor
    · intro hpre
      exact hpq (congrArg Prod.fst (hPF p hp q hq hpre))
    · intro heq
      exact hpq (congrArg Prod.fst (hPF p hp q hq (heq ▸ List.prefix_rfl)))
  · intro p hp
    exact ⟨hne p hp, hbits p hp⟩

theorem c3_table_prefix_free_witness :
    (¬(['0'] : List Char) <+: ['1'] ∧ (['0'] : List Char) ≠ ['1']) ∧
    ((['0'] : List Char) ≠ [] ∧ ('0' = '0' ∨ '0' = '1')) := by
  have h := c3_table_prefix_free ['a', 'b'] (by decide)
  have h1 := h.1 ('a', ['0']) (by decide) ('b', ['1']) (by decide) (by decide)
  have h2 := h.2.1 ('a', ['0']) (by decide)
  exact ⟨h1, h2.1, h2.2 '0' (by decide)⟩

/-- C5: a one-symbol alphabet gets the single code "0"; in particular
"aaaa" has frequency table a:4, code table a:"0" and output "0000". -/
theorem c5_single_symbol (texto : List Char) (c : Char) (hne : texto ≠ [])
    (hall : ∀ x ∈ texto, x = c) :
    (construir_arvore texto).2 = [(c, ['0'])] ∧
    frequencias ['a', 'a', 'a', 'a'] = [('a', 4)] ∧
    (construir_arvore ['a', 'a', 'a', 'a']).2 = [('a', ['0'])] ∧
    comprimir ['a', 'a', 'a', 'a'] (construir_arvore ['a', 'a', 'a', 'a']).2 =
      ['0', '0', '0', '0'] := by
  refine ⟨?_, by decide, by decide, by decide⟩
  have hfr := frequencias_const texto c hne hall
  have hca : construir_arvore texto =
      (some (NoHuffman.mk (some c) texto.length none none), [(c, ['0'])]) := by
    rw [construir_arvore, if_neg hne, hfr]
    rfl
  rw [hca]

theorem c5_single_symbol_witness :
    (construir_arvore ['b', 'b', 'b']).2 = [('b', ['0'])] ∧
    frequencias ['a', 'a', 'a', 'a'] = [('a', 4)] ∧
    (construir_arvore ['a', 'a', 'a', 'a']).2 = [('a', ['0'])] ∧
    comprimir ['a', 'a', 'a', 'a'] (construir_arvore ['a', 'a', 'a', 'a']).2 =
      ['0', '0', '0', '0'] :=
  c5_single_symbol ['b', 'b', 'b'] 'b' (by decide) (by decide)

/-- C7: when every input symbol has a table entry, `comprimir` is exactly
the concatenation of the looked-up codes in input order; empty input or
an empty table gives the empty output. -/
theorem c7_comprimir_concat (texto texto2 : List Char)
    (cods cods2 : List (Char × List Char))
    (hcov : ∀ ch ∈ texto, ch ∈ cods.map Prod.fst) :
    comprimir texto cods = (texto.map (fun ch => dictGetD cods ch [])).flatten ∧
    comprimir [] cods2 = [] ∧ comprimir texto2 [] = [] := by
  refine ⟨?_, comprimir_nil cods2, by simp [comprimir]⟩
  by_cases hc : cods = []
  · subst hc
    rcases texto with _ | ⟨c, r⟩
    · simp [comprimir]
    · have := hcov c (by simp)
      simp at this
  · simp [comprimir, if_neg hc]

theorem c7_comprimir_concat_witness :
    comprimir ['a', 'b'] [('a', ['0']), ('b', ['1'])] =
      ((['a', 'b'].map (fun ch => dictGetD [('a', ['0']), ('b', ['1'])] ch [])).flatten) ∧
    comprimir [] [('a', ['0'])] = [] ∧ comprimir ['x'] [] = [] :=
  c7_comprimir_concat ['a', 'b'] ['x'] [('a', ['0']), ('b', ['1'])] [('a', ['0'])]
    (by decide)

/-- C9: in every tree returned by `construir_arvore`, a node without a
symbol has both children and carries the sum of their frequencies, and a
node with a symbol is childless. -/
theorem c9_tree_invariants (texto : List Char) (raiz : NoHuffman)
    (h : (construir_arvore texto).1 = some raiz) :
    ∀ n ∈ allNodesN raiz,
      (n.char = none → n.left ≠ none ∧ n.right ≠ none ∧
        n.freq = freqO n.left + freqO n.right) ∧
      (n.char ≠ none → n.left = none ∧ n.right = none) := by
  rcases hte : texto with _ | ⟨c0, rest⟩
  · subst hte
    simp [construir_arvore] at h
  · have hne : texto ≠ [] := by
      rw [hte]
      simp
    obtain ⟨raiz', hfst, hwf, _, _⟩ := construir_arvore_spec texto hne
    rw [hfst] at h
    have hrz : raiz' = raiz := Option.some.inj h
    subst hrz
    exact wfTree_allNodes raiz' hwf

theorem c9_tree_invariants_witness :
    ((NoHuffman.mk none 2 (some (NoHuffman.mk (some 'a') 1 none none))
        (some (NoHuffman.mk (some 'b') 1 none none))).char = none →
      (NoHuffman.mk none 2 (some (NoHuffman.mk (some 'a') 1 none none))
          (some (NoHuffman.mk (some 'b') 1 none none))).left ≠ none ∧
      (NoHuffman.mk none 2 (some (NoHuffman.mk (some 'a') 1 none none))
          (some (NoHuffman.mk (some 'b') 1 none none))).right ≠ none ∧
      (NoHuffman.mk none 2 (some (NoHuffman.mk (some 'a') 1 none none))
          (some (NoHuffman.mk (some 'b') 1 none none))).freq =
        freqO (NoHuffman.mk none 2 (some (NoHuffman.mk (some 'a') 1 none none))
          (some (NoHuffman.mk (some 'b') 1 none none))).left +
        freqO (NoHuffman.mk none 2 (some (NoHuffman.mk (some 'a') 1 none none))
          (some (NoHuffman.mk (some 'b') 1 none none))).right) ∧
    ((NoHuffman.mk none 2 (some (NoHuffman.mk (some 'a') 1 none none))
        (some (NoHuffman.mk (some 'b') 1 none none))).char ≠ none →
      (NoHuffman.mk none 2 (some (NoHuffman.mk (some 'a') 1 none none))
          (some (NoHuffman.mk (some 'b') 1 none none))).left = none ∧
      (NoHuffman.mk none 2 (some (NoHuffman.mk (some 'a') 1 none none))
          (some (NoHuffman.mk (some 'b') 1 none none))).right = none) :=
  c9_tree_invariants ['a', 'b']
    (NoHuffman.mk none 2 (some (NoHuffman.mk (some 'a') 1 none none))
      (some (NoHuffman.mk (some 'b') 1 none none))) rfl
    (NoHuffman.mk none 2 (some (NoHuffman.mk (some 'a') 1 none none))
      (some (NoHuffman.mk (some 'b') 1 none none)))
    (by simp [allNodesN])

/-- C10: on empty input the pipeline completes normally:
`construir_arvore` returns `(None, empty table)` and `comprimir` of the
empty input with that empty table is the empty string. -/
theorem c10_empty_input_pipeline :
    construir_arvore [] = (none, []) ∧
    comprimir [] (construir_arvore []).2 = [] :=
  ⟨rfl, rfl⟩

/-- C4 counterexample: building from empty input does not raise any
error; it returns None and the empty table, a silent empty result. -/
theorem c4_counterexample_empty_no_error :
    (construir_arvore []).1 = none ∧ (construir_arvore []).2 = [] :=
  ⟨rfl, rfl⟩

/-- C4 amended: building the tree from an empty input returns the pair
(None, empty code table) instead of failing with an exception; the
empty-input condition is handled by the caller before tree
construction. -/
theorem c4_amended_empty_returns_pair :
    construir_arvore [] = (none, []) :=
  rfl

/-- C6 counterexample: a symbol without a table entry is silently
dropped from the output, not surfaced as a fault: compressing "ab" with
the table a:"0" yields "0", omitting the b. -/
theorem c6_counterexample_missing_symbol_masked :
    comprimir ['a', 'b'] [('a', ['0'])] = ['0'] :=
  rfl

/-- C6 amended: a symbol of the input that lacks a code-table entry
contributes the empty string, so `comprimir` silently omits it and
raises no fault. -/
theorem c6_amended_missing_symbol_skipped (texto : List Char)
    (cods : List (Char × List Char)) (c : Char) (hc : c ∉ cods.map Prod.fst) :
    comprimir (c :: texto) cods = comprimir texto cods := by
  by_cases hnil : cods = []
  · subst hnil
    simp [comprimir]
  · rw [comprimir_cons c texto cods hnil]
    have hget : dictGetD cods c [] = [] := by
      rw [dictGetD]
      rcases hf : cods.find? (fun p => p.1 = c) with _ | p
      · rw [hf]
      · have hpc : p.1 = c := by
          have := List.find?_some hf
          simpa using this
        have hmem := List.mem_of_find?_eq_some hf
        exact absurd (List.mem_map.2 ⟨p, hmem, hpc⟩) hc
    rw [hget]
    simp

theorem c6_amended_missing_symbol_skipped_witness :
    comprimir ['b', 'a'] [('a', ['0'])] = comprimir ['a'] [('a', ['0'])] :=
  c6_amended_missing_symbol_skipped ['a'] [('a', ['0'])] 'b' (by decide)

/-- C8 counterexample: `gerar_codigos` itself, applied to a leaf root
with the empty accumulated path, assigns that leaf the empty string, not
"0". -/
theorem c8_counterexample_leaf_gets_empty :
    gerar_codigos (some (NoHuffman.mk (some 'a') 1 none none)) [] [] = [('a', [])] ∧
    [('a', ([] : List Char))] ≠ [('a', ['0'])] :=
  ⟨rfl, by decide⟩

/-- C8 amended: `gerar_codigos` assigns a leaf root its accumulated path
(the empty string for an empty path); the "0" code of the single-symbol
case is assigned by the special case inside `construir_arvore`, which
returns the table a:"0" without consulting `gerar_codigos`. -/
theorem c8_amended_leaf_special_case (c : Char) (f : Nat) (cur : List Char) :
    gerar_codigos (some (NoHuffman.mk (some c) f none none)) cur [] = [(c, cur)] ∧
    construir_arvore [c] = (some (NoHuffman.mk (some c) 1 none none), [(c, ['0'])]) :=
  ⟨rfl, rfl⟩

/-! ### Sorting and the greedy merge value -/

theorem sortedInsert_perm : ∀ (x : Nat) (l : List Nat),
    List.Perm (sortedInsert x l) (x :: l)
  | _, [] => List.Perm.refl _
  | x, y :: rest => by
    rw [sortedInsert]
    split
    · exact List.Perm.refl _
    · exact ((sortedInsert_perm x rest).cons y).trans (List.Perm.swap _ _ _)

theorem sortedInsert_sorted : ∀ (x : Nat) (l : List Nat),
    List.Sorted (· ≤ ·) l → List.Sorted (· ≤ ·) (sortedInsert x l)
  | x, [], _ => by simp [sortedInsert]
  | x, y :: rest, h => by
    rw [sortedInsert]
    rw [List.sorted_cons] at h
    split
    · rename_i hxy
      rw [List.sorted_cons]
      refine ⟨?_, List.sorted_cons.2 h⟩
      intro b hb
      rcases List.mem_cons.1 hb with hb | hb
      · rw [hb]
        exact hxy
      · exact le_trans hxy (h.1 b hb)
    · rename_i hxy
      rw [List.sorted_cons]
      refine ⟨?_, sortedInsert_sorted x rest h.2⟩
      intro b hb
      have := (sortedInsert_perm x rest).mem_iff.1 hb
      rcases List.mem_cons.1 this with hb' | hb'
      · rw [hb']
        omega
      · exact h.1 b hb'

theorem sortNat_perm : ∀ l : List Nat, List.Perm (sortNat l) l
  | [] => List.Perm.refl _
  | x :: rest => ((sortedInsert_perm x (sortNat rest)).trans
      ((sortNat_perm rest).cons x))

theorem sortNat_sorted : ∀ l : List Nat, List.Sorted (· ≤ ·) (sortNat l)
  | [] => by simp [sortNat]
  | x :: rest => sortedInsert_sorted x (sortNat rest) (sortNat_sorted rest)

theorem huffVal_perm {ws ws' : List Nat} (h : List.Perm ws ws') :
    huffVal ws = huffVal ws' := by
  rw [huffVal, huffVal, h.length_eq]
  congr 1
  exact List.eq_of_perm_of_sorted
    ((sortNat_perm ws).trans (h.trans (sortNat_perm ws').symm))
    (sortNat_sorted _) (sortNat_sorted _)

theorem huffVal_pair (a b : Nat) : huffVal [a, b] = a + b := by
  have hs : sortNat [a, b] = if a ≤ b then [a, b] else [b, a] := by
    simp [sortNat, sortedInsert]
  rw [huffVal, hs]
  split
  · rfl
  · show b + a = a + b
    omega

theorem huffVal_minima (ws rest : List Nat) (m1 m2 : Nat)
    (hperm : List.Perm ws (m1 :: m2 :: rest))
    (h1 : ∀ x ∈ ws, m1 ≤ x) (h12 : m1 ≤ m2) (h2 : ∀ x ∈ rest, m2 ≤ x) :
    huffVal ws = m1 + m2 + huffVal ((m1 + m2) :: rest) := by
  have hsorted : List.Sorted (· ≤ ·) (m1 :: m2 :: sortNat rest) := by
    rw [List.sorted_cons]
    constructor
    · intro b hb
      rcases List.mem_cons.1 hb with hb | hb
      · rw [hb]
        exact h12
      · have hbr : b ∈ rest := (sortNat_perm rest).mem_iff.1 hb
        exact h1 b (hperm.mem_iff.2
          (List.mem_cons.2 (Or.inr (List.mem_cons.2 (Or.inr hbr)))))
    · rw [List.sorted_cons]
      refine ⟨?_, sortNat_sorted rest⟩
      intro b hb
      exact h2 b ((sortNat_perm rest).mem_iff.1 hb)
  have hseq : sortNat ws = m1 :: m2 :: sortNat rest := by
    refine List.eq_of_perm_of_sorted ?_ (sortNat_sorted ws) hsorted
    refine (sortNat_perm ws).trans (hperm.trans ?_)
    exact ((sortNat_perm rest).symm.cons m2).cons m1
  rw [huffVal, hperm.length_eq, hseq]
  rfl

theorem exists_min_list : ∀ (l : List Nat), l ≠ [] → ∃ m ∈ l, ∀ x ∈ l, m ≤ x
  | [], h => absurd rfl h
  | [x], _ => ⟨x, List.mem_singleton.2 rfl, fun z hz => le_of_eq
      (List.mem_singleton.1 hz).symm⟩
  | x :: y :: rest, _ => by
    obtain ⟨m, hm, hmin⟩ := exists_min_list (y :: rest) (by simp)
    by_cases hx : x ≤ m
    · refine ⟨x, by simp, ?_⟩
      intro z hz
      rcases List.mem_cons.1 hz with hz | hz
      · omega
      · exact le_trans hx (hmin z hz)
    · refine ⟨m, by simp [hm], ?_⟩
      intro z hz
      rcases List.mem_cons.1 hz with hz | hz
      · omega
      · exact hmin z hz

theorem exists_maxlen_entry : ∀ (es : List (Nat × List Char)), es ≠ [] →
    ∃ e ∈ es, ∀ x ∈ es, x.2.length ≤ e.2.length
  | [], h => absurd rfl h
  | [e], _ => ⟨e, List.mem_singleton.2 rfl, fun x hx => le_of_eq
      (by rw [List.mem_singleton.1 hx])⟩
  | e :: f :: rest, _ => by
    obtain ⟨m, hm, hmax⟩ := exists_maxlen_entry (f :: rest) (by simp)
    by_cases he : m.2.length ≤ e.2.length
    · refine ⟨e, by simp, ?_⟩
      intro x hx
      rcases List.mem_cons.1 hx with hx | hx
      · rw [hx]
      · exact le_trans (hmax x hx) he
    · refine ⟨m, by simp [hm], ?_⟩
      intro x hx
      rcases List.mem_cons.1 hx with hx | hx
      · rw [hx]
        omega
      · exact hmax x hx

/-! ### The heap primitives preserve the binary-heap shape -/

theorem nfreq_set (l : List NoHuffman) (i : Nat) (x : NoHuffman) (j : Nat) :
    nfreq (l.set i x) j = if i = j ∧ j < l.length then x.freq else nfreq l j := by
  by_cases hj : j < l.length
  · by_cases hij : i = j
    · subst hij
      rw [if_pos ⟨rfl, hj⟩, nfreq, getD_eq_getElem _ _ _ (by simpa using hj)]
      simp
    · rw [if_neg (fun hc => hij hc.1), nfreq, nfreq,
        getD_eq_getElem _ _ _ (by simpa using hj), getD_eq_getElem _ _ _ hj]
      rw [List.getElem_set_ne hij]
  · rw [if_neg (fun hc => hj hc.2), nfreq, nfreq,
      List.getD_eq_getElem?_getD, List.getD_eq_getElem?_getD,
      List.getElem?_eq_none (by simpa using Nat.le_of_not_lt hj),
      List.getElem?_eq_none (Nat.le_of_not_lt hj)]

theorem nfreq_getD_eq (l : List NoHuffman) (i : Nat) (d : NoHuffman)
    (h : i < l.length) : (l.getD i d).freq = nfreq l i := by
  rw [nfreq, getD_eq_getElem _ _ _ h, getD_eq_getElem _ _ _ h]

theorem nfreq_append_left (l l2 : List NoHuffman) (k : Nat) (h : k < l.length) :
    nfreq (l ++ l2) k = nfreq l k := by
  rw [nfreq, nfreq, getD_eq_getElem _ _ _ (by simp; omega), getD_eq_getElem _ _ _ h]
  exact congrArg NoHuffman.freq (List.getElem_append_left h)

theorem isHeap_root_le (l : List NoHuffman) (h : isHeap l) :
    ∀ i, i < l.length → nfreq l 0 ≤ nfreq l i := by
  intro i
  induction i using Nat.strong_induction_on with
  | _ i ih =>
    intro hi
    rcases Nat.eq_zero_or_pos i with hz | hp
    · subst hz
      exact le_refl _
    · have hpar : i = 2 * ((i - 1) / 2) + 1 ∨ i = 2 * ((i - 1) / 2) + 2 := by omega
      have hple : (i - 1) / 2 < i := by omega
      exact le_trans (ih ((i - 1) / 2) hple (lt_trans hple hi)) (h ((i - 1) / 2) i hpar hi)

theorem isHeap_root_min (l : List NoHuffman) (h : isHeap l) (x : NoHuffman)
    (hx : x ∈ l) : nfreq l 0 ≤ x.freq := by
  obtain ⟨i, hi, hget⟩ := List.mem_iff_getElem.1 hx
  have : nfreq l i = x.freq := by
    rw [nfreq, getD_eq_getElem _ _ _ hi, hget]
  rw [← this]
  exact isHeap_root_le l h i hi

theorem siftdownLoop_isHeap : ∀ (fuel pos : Nat) (heap : List NoHuffman)
    (newitem : NoHuffman), pos ≤ fuel → pos < heap.length →
    heapExceptUp (heap.set pos newitem) pos →
    isHeap (siftdownLoop fuel heap 0 pos newitem)
  | 0, pos, heap, newitem, hf, hpos, hExc => by
    have hz : pos = 0 := by omega
    subst hz
    simp only [siftdownLoop]
    intro i j hpair hj
    simp only [List.length_set] at hj
    exact hExc.1 i j hpair (by simpa using hj) (by omega)
  | fuel + 1, pos, heap, newitem, hf, hpos, hExc => by
    simp only [siftdownLoop]
    split
    · rename_i hp
      have hppos : (pos - 1) / 2 < pos := by omega
      have hpl : (pos - 1) / 2 < heap.length := lt_trans hppos hpos
      have hparval : (heap.getD ((pos - 1) / 2) newitem).freq =
          nfreq heap ((pos - 1) / 2) := nfreq_getD_eq heap _ _ hpl
      have hcpp : nfreq (heap.set pos newitem) ((pos - 1) / 2) =
          nfreq heap ((pos - 1) / 2) := by
        rw [nfreq_set, if_neg (by omega)]
      have hcpos : nfreq (heap.set pos newitem) pos = newitem.freq := by
        rw [nfreq_set, if_pos ⟨rfl, hpos⟩]
      split
      · rename_i hlt
        refine siftdownLoop_isHeap fuel ((pos - 1) / 2)
          (heap.set pos (heap.getD ((pos - 1) / 2) newitem)) newitem
          (by omega) (by simpa using hpl) ?_
        have hval : ∀ k, nfreq ((heap.set pos (heap.getD ((pos - 1) / 2) newitem)).set
            ((pos - 1) / 2) newitem) k =
            if k = (pos - 1) / 2 then newitem.freq
            else if k = pos then nfreq heap ((pos - 1) / 2)
            else nfreq (heap.set pos newitem) k := by
          intro k
          rw [nfreq_set, nfreq_set, nfreq_set]
          simp only [List.length_set]
          split_ifs <;> first | rfl | omega | exact hparval | exact hparval.symm
        have hnewlt : newitem.freq < nfreq heap ((pos - 1) / 2) := by
          rw [← hparval]
          exact hlt
        constructor
        · intro i j hpair hj hexc
          simp only [List.length_set] at hj
          rw [hval i, hval j]
          have hij : i = (j - 1) / 2 ∧ i < j := by omega
          by_cases hjpos : j = pos
          · have hipp : i = (pos - 1) / 2 := by omega
            rw [if_pos hipp, if_neg (show ¬j = (pos - 1) / 2 by omega), if_pos hjpos]
            exact le_of_lt hnewlt
          · by_cases hjpp : j = (pos - 1) / 2
            · exfalso
              exact hexc (by omega)
            · by_cases hipos : i = pos
              · rw [if_neg (show ¬i = (pos - 1) / 2 by omega), if_pos hipos,
                  if_neg hjpp, if_neg hjpos]
                have hbr := hExc.2 j (by omega) (by simp; omega) hp
                rw [hcpp] at hbr
                exact hbr
              · by_cases hipp : i = (pos - 1) / 2
                · rw [if_pos hipp, if_neg hjpp, if_neg hjpos]
                  have hold := hExc.1 i j hpair (by simp; omega) (by omega)
                  rw [hipp, hcpp] at hold
                  exact le_trans (le_of_lt hnewlt) hold
                · rw [if_neg hipp, if_neg hipos, if_neg hjpp, if_neg hjpos]
                  exact hExc.1 i j hpair (by simp; omega) (by omega)
        · intro j hpair hj hpp0
          simp only [List.length_set] at hj
          rw [hval ((((pos - 1) / 2) - 1) / 2), hval j]
          have hgp1 : (((pos - 1) / 2) - 1) / 2 ≠ (pos - 1) / 2 := by omega
          have hgp2 : (((pos - 1) / 2) - 1) / 2 ≠ pos := by omega
          have hppair : (pos - 1) / 2 = 2 * ((((pos - 1) / 2) - 1) / 2) + 1 ∨
              (pos - 1) / 2 = 2 * ((((pos - 1) / 2) - 1) / 2) + 2 := by omega
          have hgple := hExc.1 ((((pos - 1) / 2) - 1) / 2) ((pos - 1) / 2) hppair
            (by simp; omega) (by omega)
          have hgpother : nfreq (heap.set pos newitem) ((((pos - 1) / 2) - 1) / 2) =
              nfreq heap ((((pos - 1) / 2) - 1) / 2) := by
            rw [nfreq_set, if_neg (by omega)]
          rw [hcpp, hgpother] at hgple
          rw [if_neg hgp1, if_neg hgp2, hgpother]
          by_cases hjpos : j = pos
          · rw [if_neg (show ¬j = (pos - 1) / 2 by omega), if_pos hjpos]
            exact hgple
          · by_cases hjpp : j = (pos - 1) / 2
            · exfalso
              omega
            · have hjother : nfreq (heap.set pos newitem) j = nfreq heap j := by
                rw [nfreq_set, if_neg (by omega)]
              have hstep := hExc.1 ((pos - 1) / 2) j hpair (by simp; omega)
                (by omega)
              rw [hcpp, hjother] at hstep
              rw [if_neg hjpp, if_neg hjpos, hjother]
              exact le_trans hgple hstep
      · rename_i hnlt
        intro i j hpair hj
        simp only [List.length_set] at hj
        by_cases hjpos : j = pos
        · have hipp : i = (pos - 1) / 2 := by omega
          subst hipp
          subst hjpos
          rw [hcpp, hcpos, ← hparval]
          exact Nat.le_of_not_lt hnlt
        · exact hExc.1 i j hpair (by simp; omega) (by omega)
    · rename_i hp
      have hz : pos = 0 := by omega
      subst hz
      intro i j hpair hj
      simp only [List.length_set] at hj
      exact hExc.1 i j hpair (by simp; omega) (by omega)

theorem heappush_isHeap (heap : List NoHuffman) (item : NoHuffman)
    (h : isHeap heap) : isHeap (heappush heap item) := by
  rw [heappush]
  refine siftdownLoop_isHeap heap.length heap.length (heap ++ [item]) item
    (le_refl _) (by simp) ?_
  rw [set_append_last]
  constructor
  · intro i j hpair hj hexc
    simp only [List.length_append, List.length_cons, List.length_nil] at hj
    by_cases hjl : j < heap.length
    · have hil : i < heap.length := by omega
      rw [nfreq_append_left _ _ _ hil, nfreq_append_left _ _ _ hjl]
      exact h i j hpair hjl
    · exfalso
      exact hexc (by omega)
  · intro j hpair hj _
    simp only [List.length_append, List.length_cons, List.length_nil] at hj
    omega

theorem siftupLoop_post : ∀ (fuel : Nat) (heap : List NoHuffman) (pos : Nat)
    (newitem : NoHuffman), heap.length - pos ≤ fuel → pos < heap.length →
    holeInv heap pos →
    heapExceptUp (siftupLoop fuel heap pos newitem).1 (siftupLoop fuel heap pos newitem).2
  | 0, heap, pos, newitem, hf, hpos, hhole => by omega
  | fuel + 1, heap, pos, newitem, hf, hpos, hhole => by
    simp only [siftupLoop]
    split
    · rename_i hchild
      set cp := if 2 * pos + 1 + 1 < heap.length ∧
          ¬(heap.getD (2 * pos + 1) newitem).ltFreq (heap.getD (2 * pos + 1 + 1) newitem) then
          2 * pos + 1 + 1
        else 2 * pos + 1 with hcp
      have hcpl : cp < heap.length := by
        rw [hcp]; split <;> omega
      have hcppair : cp = 2 * pos + 1 ∨ cp = 2 * pos + 2 := by
        rw [hcp]; split <;> omega
      have hcpgt : pos < cp := by omega
      -- the chosen child has the smaller frequency
      have hchoice : ∀ s, (s = 2 * pos + 1 ∨ s = 2 * pos + 2) → s < heap.length →
          s ≠ cp → nfreq heap cp ≤ nfreq heap s := by
        intro s hs hsl hsne
        rw [hcp] at hsne ⊢
        by_cases hcond : 2 * pos + 1 + 1 < heap.length ∧
            ¬(heap.getD (2 * pos + 1) newitem).ltFreq (heap.getD (2 * pos + 1 + 1) newitem)
        · rw [if_pos hcond] at hsne ⊢
          have hs1 : s = 2 * pos + 1 := by omega
          subst hs1
          rw [← nfreq_getD_eq heap _ newitem (by omega),
            ← nfreq_getD_eq heap _ newitem (by omega)]
          have hc2 := hcond.2
          rw [NoHuffman.ltFreq] at hc2
          omega
        · rw [if_neg hcond] at hsne ⊢
          have hs2 : s = 2 * pos + 1 + 1 := by omega
          subst hs2
          have hlt : (heap.getD (2 * pos + 1) newitem).ltFreq
              (heap.getD (2 * pos + 1 + 1) newitem) := by
            by_contra hnot
            exact hcond ⟨by omega, hnot⟩
          rw [NoHuffman.ltFreq] at hlt
          rw [← nfreq_getD_eq heap _ newitem (by omega),
            ← nfreq_getD_eq heap _ newitem hsl]
          omega
      have hsetval : ∀ k, nfreq (heap.set pos (heap.getD cp newitem)) k =
          if k = pos then nfreq heap cp else nfreq heap k := by
        intro k
        rw [nfreq_set]
        by_cases hk : k = pos
        · subst hk
          rw [if_pos ⟨rfl, hpos⟩, if_pos rfl, nfreq_getD_eq heap _ _ hcpl]
        · rw [if_neg (fun hc => hk hc.1.symm), if_neg hk]
      refine siftupLoop_post fuel (heap.set pos (heap.getD cp newitem)) cp newitem
        (by simp; omega) (by simpa using hcpl) ?_
      constructor
      · intro i j hpair hj hine hjne
        simp only [List.length_set] at hj
        rw [hsetval i, hsetval j]
        by_cases hjpos : j = pos
        · have hipar : i = (pos - 1) / 2 := by omega
          have hp0 : 0 < pos := by omega
          rw [if_neg (show ¬i = pos by omega), if_pos hjpos]
          have := hhole.2 cp hcppair hcpl hp0
          rw [hipar]
          exact this
        · by_cases hipos : i = pos
          · rw [if_pos hipos, if_neg hjpos]
            exact hchoice j (by omega) hj (by omega)
          · rw [if_neg hipos, if_neg hjpos]
            exact hhole.1 i j hpair hj hipos hjpos
      · intro j hpair hj hcp0
        simp only [List.length_set] at hj
        rw [hsetval ((cp - 1) / 2), hsetval j]
        have hcppar : (cp - 1) / 2 = pos := by omega
        rw [if_pos hcppar, if_neg (show ¬j = pos by omega)]
        exact hhole.1 cp j hpair hj (by omega) (by omega)
    · rename_i hchild
      constructor
      · intro i j hpair hj hexc
        simp only [List.length_set] at hj
        rw [nfreq_set, nfreq_set]
        by_cases hjpos : j = pos
        · exfalso
          exact hexc (by omega)
        · by_cases hipos : i = pos
          · exfalso
            omega
          · rw [if_neg (fun hc => hipos hc.1.symm), if_neg (fun hc => hjpos hc.1.symm)]
            exact hhole.1 i j hpair hj hipos hjpos
      · intro j hpair hj _
        simp only [List.length_set] at hj
        omega

theorem siftup_isHeap (heap : List NoHuffman) (hne : 0 < heap.length)
    (hinv : holeInv heap 0) : isHeap (siftup heap 0) := by
  have hfacts := siftupLoop_facts heap.length heap 0
    (heap.getD 0 (NoHuffman.mk none 0 none none)) hne
  have hlen := siftupLoop_length heap.length heap 0
    (heap.getD 0 (NoHuffman.mk none 0 none none))
  have hpost := siftupLoop_post heap.length heap 0
    (heap.getD 0 (NoHuffman.mk none 0 none none)) (by omega) hne hinv
  show isHeap (siftdownLoop _ _ _ _ _)
  refine siftdownLoop_isHeap _ _ _ _ (le_refl _) (by rw [hlen]; exact hfacts.2.1) ?_
  rw [set_of_getElem? _ _ _ hfacts.2.2]
  exact hpost

theorem heappop_min (heap : List NoHuffman) (x : NoHuffman) (h2 : List NoHuffman)
    (hh : isHeap heap) (hpop : heappop heap = some (x, h2)) :
    isHeap h2 ∧ ∀ y ∈ h2, x.freq ≤ y.freq := by
  have hne : heap ≠ [] := by
    intro he
    subst he
    simp [heappop] at hpop
  have hperm := (heappop_perm heap x h2 hpop).1
  rw [heappop, List.getLast?_eq_getLast heap hne] at hpop
  have hsplit := List.dropLast_concat_getLast hne
  rcases hd : heap.dropLast with _ | ⟨z, zs⟩ <;> rw [hd] at hpop <;> simp at hpop <;>
    rw [hd] at hsplit
  · -- singleton heap
    refine ⟨?_, ?_⟩
    · rw [hpop.2]
      intro i j hpair hj
      simp at hj
    · intro y hy
      rw [hpop.2] at hy
      simp at hy
  · -- general case: x is the root, the rest is re-heapified by siftup
    have hx0 : nfreq heap 0 = x.freq := by
      rw [nfreq]
      conv_lhs => rw [← hsplit]
      show z.freq = x.freq
      rw [hpop.1]
    have hmin : ∀ y ∈ h2, x.freq ≤ y.freq := by
      intro y hy
      have hyh : y ∈ heap := hperm.mem_iff.2 (by simp [hy])
      rw [← hx0]
      exact isHeap_root_min heap hh y hyh
    refine ⟨?_, hmin⟩
    rw [← hpop.2]
    refine siftup_isHeap _ (by simp) ?_
    have hval : ∀ k, 0 < k → k ≤ zs.length →
        nfreq (heap.getLast hne :: zs) k = nfreq heap k := by
      intro k hk0 hkl
      rcases k with _ | k'
      · omega
      · have hzs : k' < zs.length := by omega
        rw [nfreq, nfreq, List.getD_eq_getElem?_getD, List.getD_eq_getElem?_getD]
        have he1 : (heap.getLast hne :: zs)[k' + 1]? = zs[k']? := by
          rw [List.getElem?_cons_succ]
        have he2 : heap[k' + 1]? = zs[k']? := by
          rw [← hsplit, List.getElem?_append_left (by simp; omega),
            List.getElem?_cons_succ]
        rw [he1, he2]
    constructor
    · intro i j hpair hj hine hjne
      simp only [List.length_cons] at hj
      have hjheap : j < heap.length := by
        rw [← hsplit]
        simp
        omega
      rw [hval i (by omega) (by omega), hval j (by omega) (by omega)]
      exact hh i j hpair hjheap
    · intro j hpair hj h0
      omega

/-! ### The merge loop computes the greedy Huffman cost -/

theorem intSums_perm {l l' : List NoHuffman} (h : List.Perm l l') :
    intSums l = intSums l' :=
  (h.map intSum).sum_eq

theorem heapFreqs_perm {l l' : List NoHuffman} (h : List.Perm l l') :
    List.Perm (heapFreqs l) (heapFreqs l') :=
  h.map NoHuffman.freq

theorem heapPairs_perm {l l' : List NoHuffman} (h : List.Perm l l') :
    List.Perm (heapPairs l) (heapPairs l') :=
  (h.map leafPairs).flatten

theorem heapPairs_cons (t : NoHuffman) (l : List NoHuffman) :
    heapPairs (t :: l) = leafPairs t ++ heapPairs l := by
  simp [heapPairs]

theorem intSum_merge (no1 no2 : NoHuffman) :
    intSum (NoHuffman.mk none (no1.freq + no2.freq) (some no1) (some no2)) =
      (no1.freq + no2.freq) + (intSum no1 + intSum no2) := by
  simp [intSum]

theorem leafPairs_merge (no1 no2 : NoHuffman) (f : Nat) :
    leafPairs (NoHuffman.mk none f (some no1) (some no2)) =
      leafPairs no1 ++ leafPairs no2 := by
  simp [leafPairs]

theorem huffVal_single (a : Nat) : huffVal [a] = 0 := rfl

theorem huffLoop_phi : ∀ (fuel : Nat) (heap : List NoHuffman),
    heap.length ≤ fuel → 1 ≤ heap.length → isHeap heap →
    ∃ t, huffLoop fuel heap = [t] ∧
      huffVal (heapFreqs heap) + intSums heap = intSum t ∧
      List.Perm (leafPairs t) (heapPairs heap)
  | 0, heap, hf, h1, _ => by omega
  | fuel + 1, heap, hf, h1, hheap => by
    rcases Nat.lt_or_ge heap.length 2 with hsmall | hbig
    · -- a single tree: the loop is the identity
      rcases heap with _ | ⟨t, rest⟩
      · simp at h1
      · have hrest : rest = [] := by
          simp at hsmall
          have hr0 : rest.length = 0 := by omega
          exact List.eq_nil_of_length_eq_zero hr0
        subst hrest
        refine ⟨t, huffLoop_fixed (fuel + 1) [t] (by simp), ?_, ?_⟩
        · show huffVal [t.freq] + intSums [t] = intSum t
          rw [huffVal_single]
          simp [intSums]
        · simp [heapPairs]
    · -- at least two trees: pop the two minima, push their merge
      simp only [huffLoop]
      rw [if_pos (by omega)]
      rcases hp1 : heappop heap with _ | ⟨no1, h1'⟩
      · rw [heappop_eq_none_iff] at hp1
        subst hp1
        simp at hbig
      · obtain ⟨hperm1, hlen1⟩ := heappop_perm heap no1 h1' hp1
        obtain ⟨hheap1, hmin1⟩ := heappop_min heap no1 h1' hheap hp1
        rcases hp2 : heappop h1' with _ | ⟨no2, hh2⟩
        · rw [heappop_eq_none_iff] at hp2
          subst hp2
          simp at hlen1
          omega
        · obtain ⟨hperm2, hlen2⟩ := heappop_perm h1' no2 hh2 hp2
          obtain ⟨hheap2, hmin2⟩ := heappop_min h1' no2 hh2 hheap1 hp2
          show ∃ t, (match heappop h1' with
            | some (no2, h2) => huffLoop fuel (heappush h2
                (NoHuffman.mk none (no1.freq + no2.freq) (some no1) (some no2)))
            | none => heap) = [t] ∧
            huffVal (heapFreqs heap) + intSums heap = intSum t ∧
            List.Perm (leafPairs t) (heapPairs heap)
          rw [hp2]
          show ∃ t, huffLoop fuel (heappush hh2
              (NoHuffman.mk none (no1.freq + no2.freq) (some no1) (some no2))) = [t] ∧
            huffVal (heapFreqs heap) + intSums heap = intSum t ∧
            List.Perm (leafPairs t) (heapPairs heap)
          have hpermall : List.Perm heap (no1 :: no2 :: hh2) :=
            hperm1.trans (hperm2.cons no1)
          have hRmins : huffVal (heapFreqs heap) =
              no1.freq + no2.freq +
                huffVal ((no1.freq + no2.freq) :: heapFreqs hh2) := by
            refine huffVal_minima (heapFreqs heap) (heapFreqs hh2) no1.freq no2.freq
              (heapFreqs_perm hpermall) ?_
              (hmin1 no2 (hperm2.mem_iff.2 (by simp))) ?_
            · intro x hx
              obtain ⟨y, hy, hfy⟩ := List.mem_map.1 hx
              rw [← hfy]
              rcases List.mem_cons.1 (hperm1.mem_iff.1 hy) with hy1 | hy1
              · rw [hy1]
              · exact hmin1 y hy1
            · intro x hx
              obtain ⟨y, hy, hfy⟩ := List.mem_map.1 hx
              rw [← hfy]
              exact hmin2 y hy
          have hpush := heappush_perm hh2
            (NoHuffman.mk none (no1.freq + no2.freq) (some no1) (some no2))
          have hheapnew := heappush_isHeap hh2
            (NoHuffman.mk none (no1.freq + no2.freq) (some no1) (some no2)) hheap2
          have hfreqnew : List.Perm
              (heapFreqs (heappush hh2
                (NoHuffman.mk none (no1.freq + no2.freq) (some no1) (some no2))))
              ((no1.freq + no2.freq) :: heapFreqs hh2) := by
            refine (heapFreqs_perm hpush).trans ?_
            exact List.Perm.refl _
          have hintnew : intSums (heappush hh2
              (NoHuffman.mk none (no1.freq + no2.freq) (some no1) (some no2))) =
              (no1.freq + no2.freq) + (intSum no1 + intSum no2) + intSums hh2 := by
            rw [intSums_perm hpush]
            show intSum (NoHuffman.mk none (no1.freq + no2.freq) (some no1) (some no2)) +
              intSums hh2 = _
            rw [intSum_merge]
          have hintheap : intSums heap = intSum no1 + (intSum no2 + intSums hh2) := by
            rw [intSums_perm hpermall]
            simp [intSums]
          have hpairsnew : List.Perm
              (heapPairs (heappush hh2
                (NoHuffman.mk none (no1.freq + no2.freq) (some no1) (some no2))))
              (heapPairs heap) := by
            refine (heapPairs_perm hpush).trans ?_
            rw [heapPairs_cons, leafPairs_merge]
            refine List.Perm.trans ?_ (heapPairs_perm hpermall.symm)
            rw [heapPairs_cons, heapPairs_cons, List.append_assoc]
          obtain ⟨t, heq, hphi, hlp⟩ := huffLoop_phi fuel
            (heappush hh2 (NoHuffman.mk none (no1.freq + no2.freq) (some no1) (some no2)))
            (by rw [length_heappush]; omega) (by rw [length_heappush]; omega) hheapnew
          refine ⟨t, heq, ?_, hlp.trans hpairsnew⟩
          rw [huffVal_perm hfreqnew, hintnew] at hphi
          rw [hRmins, hintheap]
          omega

/-! ### Weighted code length of the generated table -/

theorem dictGetD_of_mem_nodup : ∀ (d : List (Char × List Char)) (c : Char)
    (v dflt : List Char), (c, v) ∈ d → (d.map Prod.fst).Nodup →
    dictGetD d c dflt = v
  | [], c, v, dflt, hmem, _ => by simp at hmem
  | (k, w) :: rest, c, v, dflt, hmem, hnd => by
    simp only [List.map_cons, List.nodup_cons] at hnd
    by_cases hkc : k = c
    · subst hkc
      have hv : v = w := by
        rcases List.mem_cons.1 hmem with hmem | hmem
        · injection hmem with h1 h2
        · exfalso
          exact hnd.1 (List.mem_map.2 ⟨(k, v), hmem, rfl⟩)
      subst hv
      rw [dictGetD]
      simp [List.find?]
    · have hmem2 : (c, v) ∈ rest := by
        rcases List.mem_cons.1 hmem with hmem | hmem
        · exfalso
          injection hmem with h1 h2
          exact hkc h1.symm
        · exact hmem
      have hrec := dictGetD_of_mem_nodup rest c v dflt hmem2 hnd.2
      rw [dictGetD] at hrec ⊢
      rw [List.find?]
      have hfalse : ((fun p => p.1 = c) ((k, w) : Char × List Char) : Bool) = false := by
        simp [hkc]
      rw [hfalse]
      exact hrec

theorem wsum_intSum (t : NoHuffman) (hwf : wfTree t) :
    ∀ d, wsum t d = intSum t + d * t.freq := by
  induction t using NoHuffman.ind with
  | h c f l r ihl ihr =>
    intro d
    cases c with
    | some c0 =>
      show f * d = 0 + d * f
      rw [Nat.zero_add, Nat.mul_comm]
    | none =>
      rcases hl : l with _ | tl
      · rw [hl] at hwf
        rcases hr : r with _ | tr <;> rw [hr] at hwf <;> exact absurd hwf (by simp [wfTree])
      · rcases hr : r with _ | tr
        · rw [hl, hr] at hwf
          exact absurd hwf (by simp [wfTree])
        · rw [hl, hr] at hwf
          have hwf' : f = tl.freq + tr.freq ∧ wfTree tl ∧ wfTree tr := hwf
          subst hl
          subst hr
          show wsum tl (d + 1) + wsum tr (d + 1) =
            f + (intSum tl + intSum tr) + d * f
          rw [ihl tl rfl hwf'.2.1 (d + 1), ihr tr rfl hwf'.2.2 (d + 1), hwf'.1]
          ring

theorem sum_lookup_eq_wsum (t : NoHuffman) :
    ∀ (cur : List Char) (cods : List (Char × List Char)),
    (∀ p ∈ codeListN t cur, dictGetD cods p.1 [] = p.2) →
    ((leafPairs t).map (fun p => p.2 * (dictGetD cods p.1 []).length)).sum =
      wsum t cur.length := by
  induction t using NoHuffman.ind with
  | h c f l r ihl ihr =>
    intro cur cods hlook
    cases c with
    | some c0 =>
      have hc := hlook (c0, cur) (by simp [codeListN])
      show f * (dictGetD cods c0 []).length + 0 = f * cur.length
      simp only at hc
      rw [hc, Nat.add_zero]
    | none =>
      have hcur0 : (cur ++ ['0']).length = cur.length + 1 := by simp
      have hcur1 : (cur ++ ['1']).length = cur.length + 1 := by simp
      cases l <;> cases r <;>
        simp only [leafPairs, wsum, codeListN, List.nil_append, List.append_nil,
          Nat.zero_add, Nat.add_zero, List.map_append, List.sum_append,
          List.mem_append, List.map_nil, List.sum_nil] at hlook ⊢
      case h.none.none.some tr =>
        rw [← hcur1]
        exact ihr tr rfl (cur ++ ['1']) cods hlook
      case h.none.some.none tl =>
        rw [← hcur0]
        exact ihl tl rfl (cur ++ ['0']) cods hlook
      case h.none.some.some tl tr =>
        rw [ihl tl rfl (cur ++ ['0']) cods (fun p hp => hlook p (Or.inl hp)),
          ihr tr rfl (cur ++ ['1']) cods (fun p hp => hlook p (Or.inr hp)),
          hcur0, hcur1]

theorem tableCost_eq_intSum (fr : List (Char × Nat)) (t : NoHuffman)
    (hperm : List.Perm (leafPairs t) fr) (hwf : wfTree t)
    (hnd : (symsN t).Nodup) :
    tableCost fr (codeListN t []) = intSum t := by
  have h1 : tableCost fr (codeListN t []) =
      ((leafPairs t).map
        (fun p => p.2 * (dictGetD (codeListN t []) p.1 []).length)).sum := by
    rw [tableCost]
    exact ((hperm.map _).sum_eq).symm
  rw [h1, sum_lookup_eq_wsum t [] (codeListN t []) ?_]
  · show wsum t 0 = intSum t
    rw [wsum_intSum t hwf 0]
    simp
  · intro p hp
    have hkeys : ((codeListN t []).map Prod.fst).Nodup := by
      rw [codeListN_keys]
      exact hnd
    have hpp : (p.1, p.2) ∈ codeListN t [] := by
      simpa using hp
    exact dictGetD_of_mem_nodup _ p.1 p.2 [] hpp hkeys

/-! ### The pipeline cost equals the greedy Huffman value -/

theorem isHeap_nil : isHeap [] := by
  intro i j hpair hj
  simp at hj

theorem foldl_heappush_isHeap : ∀ (fr : List (Char × Nat)) (h0 : List NoHuffman),
    isHeap h0 →
    isHeap (fr.foldl (fun h p => heappush h (NoHuffman.mk (some p.1) p.2 none none)) h0)
  | [], h0, hh => hh
  | p :: rest, h0, hh =>
    foldl_heappush_isHeap rest _ (heappush_isHeap h0 _ hh)

theorem heapFreqs_leaves : ∀ fr : List (Char × Nat),
    heapFreqs (fr.map (fun p => NoHuffman.mk (some p.1) p.2 none none)) =
      fr.map Prod.snd
  | [] => rfl
  | p :: rest => by
    show p.2 :: heapFreqs (rest.map (fun p => NoHuffman.mk (some p.1) p.2 none none)) =
      p.2 :: rest.map Prod.snd
    rw [heapFreqs_leaves rest]

theorem heapPairs_leaves : ∀ fr : List (Char × Nat),
    heapPairs (fr.map (fun p => NoHuffman.mk (some p.1) p.2 none none)) = fr
  | [] => rfl
  | p :: rest => by
    simp only [List.map_cons, heapPairs_cons]
    rw [heapPairs_leaves rest]
    rfl

theorem intSums_leaves : ∀ fr : List (Char × Nat),
    intSums (fr.map (fun p => NoHuffman.mk (some p.1) p.2 none none)) = 0
  | [] => rfl
  | p :: rest => by
    show intSum (NoHuffman.mk (some p.1) p.2 none none) +
      intSums (rest.map (fun p => NoHuffman.mk (some p.1) p.2 none none)) = 0
    rw [intSums_leaves rest]
    rfl

theorem construir_arvore_cost (texto : List Char) (h : texto ≠ [])
    (hmulti : (frequencias texto).length ≠ 1) :
    ∃ raiz, (construir_arvore texto).1 = some raiz ∧
      List.Perm (leafPairs raiz) (frequencias texto) ∧
      intSum raiz = huffVal ((frequencias texto).map Prod.snd) ∧
      tableCost (frequencias texto) (construir_arvore texto).2 =
        huffVal ((frequencias texto).map Prod.snd) := by
  have hfr : frequencias texto ≠ [] := frequencias_ne_nil texto h
  have hperm0 : List.Perm
      ((frequencias texto).foldl
        (fun h p => heappush h (NoHuffman.mk (some p.1) p.2 none none)) [])
      ((frequencias texto).map (fun p => NoHuffman.mk (some p.1) p.2 none none)) := by
    simpa using foldl_heappush_perm (frequencias texto) []
  have hlen0 : ((frequencias texto).foldl
      (fun h p => heappush h (NoHuffman.mk (some p.1) p.2 none none)) []).length =
      (frequencias texto).length := by
    rw [hperm0.length_eq]
    simp
  have hca : construir_arvore texto =
      (let heap := (frequencias texto).foldl
        (fun h p => heappush h (NoHuffman.mk (some p.1) p.2 none none)) []
      if heap.length = 1 then
        match heappop heap with
        | some (raiz, _) =>
          match raiz.char with
          | some c => (some raiz, [(c, ['0'])])
          | none => (some raiz, [])
        | none => (none, [])
      else
        match heappop (huffLoop heap.length heap) with
        | some (raiz, _) => (some raiz, gerar_codigos (some raiz) [] [])
        | none => (none, [])) := by
    rw [construir_arvore]
    rw [if_neg h]
  have h1 : ¬((frequencias texto).foldl
      (fun h p => heappush h (NoHuffman.mk (some p.1) p.2 none none)) []).length = 1 := by
    rw [hlen0]
    exact hmulti
  have hfl1 : 1 ≤ ((frequencias texto).foldl
      (fun h p => heappush h (NoHuffman.mk (some p.1) p.2 none none)) []).length := by
    rw [hlen0]
    have : (frequencias texto).length ≠ 0 := by
      intro hz
      exact hfr (List.eq_nil_of_length_eq_zero hz)
    omega
  have hinv0 : heapInv ((frequencias texto).foldl
      (fun h p => heappush h (NoHuffman.mk (some p.1) p.2 none none)) []) := by
    refine heapInv_perm hperm0.symm ⟨?_, ?_⟩
    · intro t ht
      obtain ⟨p, _, hp⟩ := List.mem_map.1 ht
      rw [← hp]
      exact wfTree_leaf p.1 p.2
    · rw [heapSyms_leaves]
      exact frequencias_keys_nodup texto
  have hheap0 : isHeap ((frequencias texto).foldl
      (fun h p => heappush h (NoHuffman.mk (some p.1) p.2 none none)) []) :=
    foldl_heappush_isHeap (frequencias texto) [] isHeap_nil
  obtain ⟨t, hloop, hwf, hchar, hsyms⟩ := huffLoop_spec
    ((frequencias texto).foldl
      (fun h p => heappush h (NoHuffman.mk (some p.1) p.2 none none)) []).length
    ((frequencias texto).foldl
      (fun h p => heappush h (NoHuffman.mk (some p.1) p.2 none none)) [])
    (le_refl _) (by omega) hinv0
  obtain ⟨t2, hloop2, hphi, hpairs⟩ := huffLoop_phi
    ((frequencias texto).foldl
      (fun h p => heappush h (NoHuffman.mk (some p.1) p.2 none none)) []).length
    ((frequencias texto).foldl
      (fun h p => heappush h (NoHuffman.mk (some p.1) p.2 none none)) [])
    (le_refl _) hfl1 hheap0
  have ht2 : t2 = t := by
    rw [hloop] at hloop2
    exact (List.cons.injEq _ _ _ _ ▸ hloop2).1.symm
  subst ht2
  have hsymsfr : List.Perm (symsN t2) ((frequencias texto).map Prod.fst) := by
    refine hsyms.trans ?_
    refine (heapSyms_perm hperm0).trans ?_
    rw [heapSyms_leaves]
  have hnodupt : (symsN t2).Nodup :=
    (hsymsfr.nodup_iff).2 (frequencias_keys_nodup texto)
  have hleafperm : List.Perm (leafPairs t2) (frequencias texto) := by
    refine hpairs.trans ?_
    refine (heapPairs_perm hperm0).trans ?_
    rw [heapPairs_leaves]
  have hintsum : intSum t2 = huffVal ((frequencias texto).map Prod.snd) := by
    rw [← hphi]
    rw [intSums_perm hperm0, intSums_leaves]
    rw [huffVal_perm (heapFreqs_perm hperm0)]
    rw [heapFreqs_leaves, Nat.add_zero]
  have htable : (construir_arvore texto).2 = codeListN t2 [] := by
    rw [hca]
    simp only [hloop]
    rw [if_neg h1]
    simp only [heappop_singleton]
    show gerar_codigos (some t2) [] [] = codeListN t2 []
    rw [gerar_codigos]
    rw [gerarNo_eq_append t2 [] [] hnodupt (by simp)]
    simp
  refine ⟨t2, ?_, hleafperm, hintsum, ?_⟩
  · rw [hca]
    simp only [hloop]
    rw [if_neg h1]
    simp [heappop_singleton]
  · rw [htable]
    rw [tableCost_eq_intSum (frequencias texto) t2 hleafperm hwf hnodupt]
    exact hintsum

/-! ### Any binary prefix code costs at least the greedy value -/

theorem costE_cons (f : Nat) (w : List Char) (es : List (Nat × List Char)) :
    costE ((f, w) :: es) = f * w.length + costE es := by
  simp [costE]

theorem totLen_cons (f : Nat) (w : List Char) (es : List (Nat × List Char)) :
    totLen ((f, w) :: es) = w.length + totLen es := by
  simp [totLen]

theorem costE_perm {es es' : List (Nat × List Char)} (h : List.Perm es es') :
    costE es = costE es' :=
  (h.map _).sum_eq

theorem totLen_perm {es es' : List (Nat × List Char)} (h : List.Perm es es') :
    totLen es = totLen es' :=
  (h.map _).sum_eq

theorem totLen_mem_le (es : List (Nat × List Char)) (e : Nat × List Char)
    (h : e ∈ es) : e.2.length ≤ totLen es :=
  List.single_le_sum (fun y _ => Nat.zero_le y) e.2.length
    (List.mem_map.2 ⟨e, h, rfl⟩)

theorem npf_perm {l l' : List (List Char)} (h : List.Perm l l')
    (hp : l.Pairwise (fun a b => ¬a <+: b ∧ ¬b <+: a)) :
    l'.Pairwise (fun a b => ¬a <+: b ∧ ¬b <+: a) := by
  refine (h.pairwise_iff ?_).1 hp
  intro a b hab
  exact ⟨hab.2, hab.1⟩

theorem exists_perm_extract {α : Type} : ∀ (a : α) (l : List α), a ∈ l →
    ∃ l2, List.Perm l (a :: l2)
  | a, [], h => absurd h (List.not_mem_nil a)
  | a, b :: rest, h => by
    rcases List.mem_cons.1 h with h | h
    · refine ⟨rest, ?_⟩
      rw [h]
    · obtain ⟨l2, hl2⟩ := exists_perm_extract a rest h
      exact ⟨b :: l2, (hl2.cons b).trans (List.Perm.swap a b l2)⟩

theorem putMin : ∀ (tail : List (Nat × List Char)) (f : Nat) (w : List Char),
    (∀ e ∈ tail, e.2.length ≤ w.length) →
    ∃ (m : Nat) (tail2 : List (Nat × List Char)),
      List.Perm (f :: tail.map Prod.fst) (m :: tail2.map Prod.fst) ∧
      tail2.map Prod.snd = tail.map Prod.snd ∧
      (∀ x ∈ f :: tail.map Prod.fst, m ≤ x) ∧
      costE ((m, w) :: tail2) ≤ costE ((f, w) :: tail)
  | [], f, w, _ => ⟨f, [], List.Perm.refl _, rfl, by simp, le_refl _⟩
  | (g, u) :: rest, f, w, hlen => by
    obtain ⟨m, rest2, hperm, hsnd, hmin, hcost⟩ := putMin rest f w
      (fun e he => hlen e (List.mem_cons.2 (Or.inr he)))
    by_cases hmg : m ≤ g
    · refine ⟨m, (g, u) :: rest2, ?_, ?_, ?_, ?_⟩
      · show List.Perm (f :: g :: rest.map Prod.fst) (m :: g :: rest2.map Prod.fst)
        refine (List.Perm.swap g f _).trans ((hperm.cons g).trans ?_)
        exact List.Perm.swap m g _
      · show u :: rest2.map Prod.snd = u :: rest.map Prod.snd
        rw [hsnd]
      · intro x hx
        rcases List.mem_cons.1 hx with hx | hx
        · exact hmin x (by simp [hx])
        · rcases List.mem_cons.1 hx with hx | hx
          · rw [hx]
            exact hmg
          · exact hmin x (List.mem_cons.2 (Or.inr hx))
      · simp only [costE_cons] at hcost ⊢
        omega
    · have hgm : g ≤ m := by omega
      refine ⟨g, (m, u) :: rest2, ?_, ?_, ?_, ?_⟩
      · show List.Perm (f :: g :: rest.map Prod.fst) (g :: m :: rest2.map Prod.fst)
        exact (List.Perm.swap g f _).trans (hperm.cons g)
      · show u :: rest2.map Prod.snd = u :: rest.map Prod.snd
        rw [hsnd]
      · intro x hx
        have hmf : m ≤ f := hmin f (by simp)
        rcases List.mem_cons.1 hx with hx | hx
        · omega
        · rcases List.mem_cons.1 hx with hx | hx
          · rw [hx]
          · have := hmin x (List.mem_cons.2 (Or.inr hx))
            omega
      · simp only [costE_cons] at hcost ⊢
        have hul : u.length ≤ w.length := hlen (g, u) (by simp)
        nlinarith

theorem binary_singleton (w : List Char) (hne : w ≠ [])
    (hlen : w.length ≤ 1) (hbits : ∀ c ∈ w, c = '0' ∨ c = '1') :
    w = ['0'] ∨ w = ['1'] := by
  rcases w with _ | ⟨x, xs⟩
  · exact absurd rfl hne
  · have hxs : xs = [] := by
      simpa using hlen
    subst hxs
    rcases hbits x (by simp) with hx | hx
    · left
      rw [hx]
    · right
      rw [hx]

theorem npf_maxlen_two (ws : List (List Char)) (h3 : 3 ≤ ws.length)
    (hne : ∀ w ∈ ws, w ≠ [])
    (hbits : ∀ w ∈ ws, ∀ c ∈ w, c = '0' ∨ c = '1')
    (hpf : ws.Pairwise (fun a b => ¬a <+: b ∧ ¬b <+: a)) :
    ∃ w ∈ ws, 2 ≤ w.length := by
  by_contra hcon
  push_neg at hcon
  rcases ws with _ | ⟨a, _ | ⟨b, _ | ⟨c, rest⟩⟩⟩ <;> simp at h3
  have hab : ¬a <+: b ∧ ¬b <+: a := (List.pairwise_cons.1 hpf).1 b (by simp)
  have hac : ¬a <+: c ∧ ¬c <+: a := (List.pairwise_cons.1 hpf).1 c (by simp)
  have hbc : ¬b <+: c ∧ ¬c <+: b :=
    (List.pairwise_cons.1 (List.pairwise_cons.1 hpf).2).1 c (by simp)
  have ha2 := binary_singleton a (hne a (by simp)) (by have := hcon a (by simp); omega)
    (hbits a (by simp))
  have hb2 := binary_singleton b (hne b (by simp)) (by have := hcon b (by simp); omega)
    (hbits b (by simp))
  have hc2 := binary_singleton c (hne c (by simp)) (by have := hcon c (by simp); omega)
    (hbits c (by simp))
  rcases ha2 with ha2 | ha2 <;> rcases hb2 with hb2 | hb2 <;>
    rcases hc2 with hc2 | hc2 <;> subst ha2 <;> subst hb2 <;> subst hc2 <;>
    first
    | exact hab.1 (List.prefix_refl _)
    | exact hac.1 (List.prefix_refl _)
    | exact hbc.1 (List.prefix_refl _)

theorem costE_cons2 (e : Nat × List Char) (es : List (Nat × List Char)) :
    costE (e :: es) = e.1 * e.2.length + costE es := by
  simp [costE]

theorem totLen_cons2 (e : Nat × List Char) (es : List (Nat × List Char)) :
    totLen (e :: es) = e.2.length + totLen es := by
  simp [totLen]

theorem totLen_eq_snd (es : List (Nat × List Char)) :
    totLen es = ((es.map Prod.snd).map List.length).sum := by
  rw [totLen, List.map_map]
  rfl

theorem ext_form (w u : List Char) (hwne : w ≠ [])
    (hpre : w.dropLast <+: u) (hlen : u.length ≤ w.length)
    (huw : ¬u <+: w) :
    ∃ b2, u = w.dropLast ++ [b2] := by
  have hsplit : w.dropLast ++ [w.getLast hwne] = w := List.dropLast_concat_getLast hwne
  have hdl : w.dropLast.length = w.length - 1 := by simp
  have hwpos : 0 < w.length := List.length_pos.2 hwne
  obtain ⟨r, hr⟩ := hpre
  rcases r with _ | ⟨b2, r2⟩
  · exfalso
    apply huw
    refine ⟨[w.getLast hwne], ?_⟩
    rw [← hr, List.append_nil, hsplit]
  · have hrlen : r2.length = 0 := by
      have := congrArg List.length hr
      simp at this
      omega
    have hr2 : r2 = [] := List.eq_nil_of_length_eq_zero hrlen
    subst hr2
    exact ⟨b2, hr.symm⟩

theorem binary_third (x y z : Char) (hx : x = '0' ∨ x = '1') (hy : y = '0' ∨ y = '1')
    (hz : z = '0' ∨ z = '1') (hxy : x ≠ y) : z = x ∨ z = y := by
  rcases hx with rfl | rfl <;> rcases hy with rfl | rfl <;> rcases hz with rfl | rfl <;>
    first
    | (left; rfl)
    | (right; rfl)
    | (exact absurd rfl hxy)

theorem pf_cost_lower : ∀ (N : Nat) (es : List (Nat × List Char)),
    totLen es ≤ N → 2 ≤ es.length →
    (∀ e ∈ es, e.2 ≠ []) →
    (∀ e ∈ es, ∀ c ∈ e.2, c = '0' ∨ c = '1') →
    ((es.map Prod.snd).Pairwise (fun a b => ¬a <+: b ∧ ¬b <+: a)) →
    huffVal (es.map Prod.fst) ≤ costE es := by
  intro N
  induction N with
  | zero =>
    intro es htot hlen2 hne _ _
    exfalso
    rcases es with _ | ⟨e, rest⟩
    · simp at hlen2
    · have h1 := totLen_mem_le (e :: rest) e (by simp)
      have h2 : e.2.length = 0 := by omega
      exact hne e (by simp) (List.eq_nil_of_length_eq_zero h2)
  | succ N ih =>
    intro es htot hlen2 hne hbits hpf
    rcases Nat.lt_or_ge es.length 3 with hsmall | hbig
    · -- exactly two entries: each code has length at least one
      rcases es with _ | ⟨⟨f1, w1⟩, _ | ⟨⟨f2, w2⟩, rest⟩⟩
      · simp at hlen2
      · simp at hlen2
      · have hrlen : rest.length = 0 := by
          simp at hsmall
          omega
        have hrest : rest = [] := List.eq_nil_of_length_eq_zero hrlen
        subst hrest
        show huffVal [f1, f2] ≤ costE [(f1, w1), (f2, w2)]
        rw [huffVal_pair]
        have hw1 : 0 < w1.length := List.length_pos.2 (hne (f1, w1) (by simp))
        have hw2 : 0 < w2.length := List.length_pos.2 (hne (f2, w2) (by simp))
        have hc0 : costE ([] : List (Nat × List Char)) = 0 := rfl
        simp only [costE_cons, hc0]
        nlinarith
    · -- at least three entries
      have hesne : es ≠ [] := by
        intro hnil
        rw [hnil] at hbig
        simp at hbig
      obtain ⟨emax, hmemmax, hmaxlen0⟩ := exists_maxlen_entry es hesne
      obtain ⟨ff, w⟩ := emax
      have hmaxlen : ∀ x ∈ es, x.2.length ≤ w.length := hmaxlen0
      obtain ⟨wbig, hwbigmem, hwbig2⟩ := npf_maxlen_two (es.map Prod.snd)
        (by rw [List.length_map]; exact hbig)
        (by
          intro v hv
          obtain ⟨e, he, hev⟩ := List.mem_map.1 hv
          rw [← hev]
          exact hne e he)
        (by
          intro v hv c hc
          obtain ⟨e, he, hev⟩ := List.mem_map.1 hv
          rw [← hev] at hc
          exact hbits e he c hc)
        hpf
      have hL2 : 2 ≤ w.length := by
        obtain ⟨e, he, hev⟩ := List.mem_map.1 hwbigmem
        have h1 := hmaxlen e he
        rw [hev] at h1
        omega
      have hwne : w ≠ [] := by
        intro hnil
        rw [hnil] at hL2
        simp at hL2
      have hsplit : w.dropLast ++ [w.getLast hwne] = w :=
        List.dropLast_concat_getLast hwne
      have hdpre : w.dropLast <+: w := ⟨[w.getLast hwne], hsplit⟩
      have hdlen : w.dropLast.length = w.length - 1 := by simp
      have hdne : w.dropLast ≠ [] := by
        refine List.length_pos.1 ?_
        omega
      obtain ⟨es1, hperm1⟩ := exists_perm_extract (ff, w) es hmemmax
      have hne1 : ∀ e ∈ (ff, w) :: es1, e.2 ≠ [] :=
        fun e he => hne e (hperm1.mem_iff.2 he)
      have hbits1 : ∀ e ∈ (ff, w) :: es1, ∀ c ∈ e.2, c = '0' ∨ c = '1' :=
        fun e he => hbits e (hperm1.mem_iff.2 he)
      have hpf1 : (w :: es1.map Prod.snd).Pairwise (fun a b => ¬a <+: b ∧ ¬b <+: a) :=
        npf_perm (hperm1.map Prod.snd) hpf
      have hwbits : ∀ c ∈ w, c = '0' ∨ c = '1' := hbits1 (ff, w) (by simp)
      by_cases hsib : ∃ e ∈ es1, w.dropLast <+: e.2
      · -- the longest word has a sibling: swap the two minima there and merge
        obtain ⟨esib0, hsibmem, hsibpre⟩ := hsib
        obtain ⟨g, u⟩ := esib0
        obtain ⟨es2, hperm2⟩ := exists_perm_extract (g, u) es1 hsibmem
        have hperm12 : List.Perm es ((ff, w) :: (g, u) :: es2) :=
          hperm1.trans (hperm2.cons (ff, w))
        have hneB : ∀ e ∈ (ff, w) :: (g, u) :: es2, e.2 ≠ [] :=
          fun e he => hne e (hperm12.mem_iff.2 he)
        have hbitsB : ∀ e ∈ (ff, w) :: (g, u) :: es2, ∀ c ∈ e.2, c = '0' ∨ c = '1' :=
          fun e he => hbits e (hperm12.mem_iff.2 he)
        have hmaxlenB : ∀ e ∈ (ff, w) :: (g, u) :: es2, e.2.length ≤ w.length :=
          fun e he => hmaxlen e (hperm12.mem_iff.2 he)
        have hpfB : (w :: u :: es2.map Prod.snd).Pairwise
            (fun a b => ¬a <+: b ∧ ¬b <+: a) :=
          npf_perm (hperm12.map Prod.snd) hpf
        have hwu : ¬w <+: u ∧ ¬u <+: w :=
          (List.pairwise_cons.1 hpfB).1 u (by simp)
        have hulen : u.length ≤ w.length := hmaxlenB (g, u) (by simp)
        obtain ⟨b2, hu_eq⟩ := ext_form w u hwne hsibpre hulen hwu.2
        have hb2 : b2 ≠ w.getLast hwne := by
          intro heq
          apply hwu.1
          have h1 : u = w := by rw [hu_eq, heq, hsplit]
          rw [h1]
        have huL : u.length = w.length := by
          rw [hu_eq]
          simp
          omega
        have hu_bits : ∀ c ∈ u, c = '0' ∨ c = '1' := hbitsB (g, u) (by simp)
        have hb2bin : b2 = '0' ∨ b2 = '1' := hu_bits b2 (by rw [hu_eq]; simp)
        have hlastbin : w.getLast hwne = '0' ∨ w.getLast hwne = '1' :=
          hwbits _ (List.getLast_mem hwne)
        obtain ⟨m1, tail2, hpermW1, hsnd1, hmin1, hcost1⟩ := putMin ((g, u) :: es2) ff w
          (fun e he => hmaxlenB e (List.mem_cons.2 (Or.inr he)))
        rcases tail2 with _ | ⟨⟨g1, u1⟩, es2b⟩
        · exfalso
          simp at hsnd1
        · have hsnd1' := hsnd1
          simp only [List.map_cons] at hsnd1'
          injection hsnd1' with hu1 hsndb
          obtain rfl := hu1.symm
          have hes2b_len : ∀ e ∈ es2b, e.2.length ≤ u.length := by
            intro e he
            have hmem2 : e.2 ∈ es2.map Prod.snd := by
              rw [← hsndb]
              exact List.mem_map.2 ⟨e, he, rfl⟩
            obtain ⟨e2, he2, he2s⟩ := List.mem_map.1 hmem2
            rw [huL, ← he2s]
            exact hmaxlenB e2 (List.mem_cons.2 (Or.inr (List.mem_cons.2 (Or.inr he2))))
          obtain ⟨m2, es2c, hpermW2, hsnd2, hmin2, hcost2⟩ := putMin es2b g1 u hes2b_len
          have hsndC : es2c.map Prod.snd = es2.map Prod.snd := by rw [hsnd2, hsndb]
          have hlenC : es2c.length = es2.length := by
            have h1 := congrArg List.length hsndC
            simpa using h1
          have hwperm : List.Perm (es.map Prod.fst) (m1 :: m2 :: es2c.map Prod.fst) :=
            (hperm12.map Prod.fst).trans (hpermW1.trans (hpermW2.cons m1))
          have hm1min : ∀ x ∈ es.map Prod.fst, m1 ≤ x := fun x hx =>
            hmin1 x ((hperm12.map Prod.fst).mem_iff.1 hx)
          have hm12 : m1 ≤ m2 := by
            have hm2mem : m2 ∈ g1 :: es2b.map Prod.fst :=
              hpermW2.mem_iff.2 (by simp)
            exact hmin1 m2 (hpermW1.mem_iff.2 (List.mem_cons.2 (Or.inr hm2mem)))
          have hm2min : ∀ x ∈ es2c.map Prod.fst, m2 ≤ x := fun x hx =>
            hmin2 x (hpermW2.mem_iff.2 (List.mem_cons.2 (Or.inr hx)))
          have hminima := huffVal_minima (es.map Prod.fst) (es2c.map Prod.fst) m1 m2
            hwperm hm1min hm12 hm2min
          have htot12 : totLen es = w.length + (u.length + totLen es2) := by
            rw [totLen_perm hperm12, totLen_cons2, totLen_cons2]
          have htotC : totLen es2c = totLen es2 := by
            rw [totLen_eq_snd, totLen_eq_snd, hsndC]
          have hlen12 : es.length = es2.length + 2 := by
            rw [hperm12.length_eq]
            simp
          have hIH : huffVal ((m1 + m2) :: es2c.map Prod.fst) ≤
              costE ((m1 + m2, w.dropLast) :: es2c) := by
            have hmapf : ((m1 + m2, w.dropLast) :: es2c).map Prod.fst =
                (m1 + m2) :: es2c.map Prod.fst := rfl
            rw [← hmapf]
            refine ih ((m1 + m2, w.dropLast) :: es2c) ?_ ?_ ?_ ?_ ?_
            · rw [totLen_cons2]
              show w.dropLast.length + totLen es2c ≤ N
              omega
            · show 2 ≤ es2c.length + 1
              omega
            · intro e he
              rcases List.mem_cons.1 he with he | he
              · rw [he]
                exact hdne
              · have hmem2 : e.2 ∈ es2.map Prod.snd := by
                  rw [← hsndC]
                  exact List.mem_map.2 ⟨e, he, rfl⟩
                obtain ⟨e2, he2, he2s⟩ := List.mem_map.1 hmem2
                rw [← he2s]
                exact hneB e2 (List.mem_cons.2 (Or.inr (List.mem_cons.2 (Or.inr he2))))
            · intro e he c hc
              rcases List.mem_cons.1 he with he | he
              · rw [he] at hc
                exact hwbits c (hdpre.subset hc)
              · have hmem2 : e.2 ∈ es2.map Prod.snd := by
                  rw [← hsndC]
                  exact List.mem_map.2 ⟨e, he, rfl⟩
                obtain ⟨e2, he2, he2s⟩ := List.mem_map.1 hmem2
                rw [← he2s] at hc
                exact hbitsB e2
                  (List.mem_cons.2 (Or.inr (List.mem_cons.2 (Or.inr he2)))) c hc
            · show (w.dropLast :: es2c.map Prod.snd).Pairwise
                (fun a b => ¬a <+: b ∧ ¬b <+: a)
              rw [hsndC]
              rw [List.pairwise_cons]
              have hpfB_tail : (u :: es2.map Prod.snd).Pairwise
                  (fun a b => ¬a <+: b ∧ ¬b <+: a) := (List.pairwise_cons.1 hpfB).2
              refine ⟨?_, (List.pairwise_cons.1 hpfB_tail).2⟩
              intro u2 hu2mem
              have hw_u2 : ¬w <+: u2 ∧ ¬u2 <+: w :=
                (List.pairwise_cons.1 hpfB).1 u2 (List.mem_cons.2 (Or.inr hu2mem))
              have hu_u2 : ¬u <+: u2 ∧ ¬u2 <+: u :=
                (List.pairwise_cons.1 hpfB_tail).1 u2 hu2mem
              obtain ⟨e2, he2, he2s⟩ := List.mem_map.1 hu2mem
              have hu2len : u2.length ≤ w.length := by
                rw [← he2s]
                exact hmaxlenB e2 (List.mem_cons.2 (Or.inr (List.mem_cons.2 (Or.inr he2))))
              constructor
              · intro hpre2
                obtain ⟨b3, hu2eq⟩ := ext_form w u2 hwne hpre2 hu2len hw_u2.2
                have hb3bin : b3 = '0' ∨ b3 = '1' := by
                  have hm3 : b3 ∈ u2 := by rw [hu2eq]; simp
                  rw [← he2s] at hm3
                  exact hbitsB e2
                    (List.mem_cons.2 (Or.inr (List.mem_cons.2 (Or.inr he2)))) b3 hm3
                rcases binary_third (w.getLast hwne) b2 b3 hlastbin hb2bin hb3bin
                    (fun hh => hb2 hh.symm) with hb3 | hb3
                · apply hw_u2.1
                  have h1 : u2 = w := by rw [hu2eq, hb3, hsplit]
                  rw [h1]
                · apply hu_u2.1
                  have h1 : u2 = u := by rw [hu2eq, hb3, ← hu_eq]
                  rw [h1]
              · intro hpre2
                exact hw_u2.2 (hpre2.trans hdpre)
          have hcostC : costE ((m1 + m2, w.dropLast) :: es2c) =
              (m1 + m2) * w.dropLast.length + costE es2c := costE_cons2 _ _
          have hkey1 : huffVal (es.map Prod.fst) ≤
              (m1 + m2) * w.length + costE es2c := by
            rw [hminima]
            have h1 : huffVal ((m1 + m2) :: es2c.map Prod.fst) ≤
                (m1 + m2) * w.dropLast.length + costE es2c := by
              rw [← hcostC]
              exact hIH
            have hD : w.length = w.dropLast.length + 1 := by omega
            calc m1 + m2 + huffVal ((m1 + m2) :: es2c.map Prod.fst)
                ≤ m1 + m2 + ((m1 + m2) * w.dropLast.length + costE es2c) := by omega
              _ = (m1 + m2) * (w.dropLast.length + 1) + costE es2c := by ring
              _ = (m1 + m2) * w.length + costE es2c := by rw [← hD]
          have hstep : (m1 + m2) * w.length + costE es2c ≤ costE es := by
            have e1 : (m1 + m2) * w.length + costE es2c =
                costE ((m1, w) :: (m2, u) :: es2c) := by
              rw [costE_cons2, costE_cons2]
              show _ = m1 * w.length + (m2 * u.length + costE es2c)
              rw [huL]
              ring
            have e2 : costE ((m1, w) :: (m2, u) :: es2c) ≤
                costE ((m1, w) :: (g1, u) :: es2b) := by
              rw [costE_cons2 (m1, w) ((m2, u) :: es2c),
                costE_cons2 (m1, w) ((g1, u) :: es2b)]
              exact Nat.add_le_add_left hcost2 _
            have e3 : costE ((m1, w) :: (g1, u) :: es2b) ≤
                costE ((ff, w) :: (g, u) :: es2) := hcost1
            have e4 : costE ((ff, w) :: (g, u) :: es2) = costE es :=
              (costE_perm hperm12).symm
            omega
          omega
      · -- no sibling: the longest word can be shortened by one bit
        have hIH : huffVal (ff :: es1.map Prod.fst) ≤
            costE ((ff, w.dropLast) :: es1) := by
          have hmapf : ((ff, w.dropLast) :: es1).map Prod.fst =
              ff :: es1.map Prod.fst := rfl
          rw [← hmapf]
          refine ih ((ff, w.dropLast) :: es1) ?_ ?_ ?_ ?_ ?_
          · rw [totLen_cons2]
            have h1 : totLen es = w.length + totLen es1 := by
              rw [totLen_perm hperm1, totLen_cons2]
            show w.dropLast.length + totLen es1 ≤ N
            omega
          · show 2 ≤ es1.length + 1
            have h1 : es.length = es1.length + 1 := by
              rw [hperm1.length_eq]
              simp
            omega
          · intro e he
            rcases List.mem_cons.1 he with he | he
            · rw [he]
              exact hdne
            · exact hne1 e (List.mem_cons.2 (Or.inr he))
          · intro e he c hc
            rcases List.mem_cons.1 he with he | he
            · rw [he] at hc
              exact hwbits c (hdpre.subset hc)
            · exact hbits1 e (List.mem_cons.2 (Or.inr he)) c hc
          · show (w.dropLast :: es1.map Prod.snd).Pairwise
              (fun a b => ¬a <+: b ∧ ¬b <+: a)
            rw [List.pairwise_cons]
            refine ⟨?_, (List.pairwise_cons.1 hpf1).2⟩
            intro u2 hu2
            obtain ⟨e2, he2, he2s⟩ := List.mem_map.1 hu2
            constructor
            · intro hpre2
              exact hsib ⟨e2, he2, by rw [he2s]; exact hpre2⟩
            · intro hpre2
              exact ((List.pairwise_cons.1 hpf1).1 u2 hu2).2 (hpre2.trans hdpre)
        have hfinal : costE ((ff, w.dropLast) :: es1) ≤ costE ((ff, w) :: es1) := by
          rw [costE_cons2, costE_cons2]
          have h1 : w.dropLast.length ≤ w.length := by omega
          gcongr
        rw [huffVal_perm (hperm1.map Prod.fst), costE_perm hperm1]
        exact le_trans hIH hfinal

theorem costE_zip : ∀ (ws : List Nat) (cs : List (List Char)),
    costE (ws.zip cs) = costW ws cs
  | [], _ => rfl
  | _ :: _, [] => rfl
  | a :: ws, c :: cs => by
    show a * c.length + costE (ws.zip cs) = a * c.length + costW ws cs
    rw [costE_zip ws cs]

theorem construir_arvore_single_table (texto : List Char) (h : texto ≠ [])
    (hone : (frequencias texto).length = 1) :
    ∃ p0, frequencias texto = [p0] ∧
      (construir_arvore texto).2 = [(p0.1, ['0'])] := by
  have hca : construir_arvore texto =
      (let heap := (frequencias texto).foldl
        (fun h p => heappush h (NoHuffman.mk (some p.1) p.2 none none)) []
      if heap.length = 1 then
        match heappop heap with
        | some (raiz, _) =>
          match raiz.char with
          | some c => (some raiz, [(c, ['0'])])
          | none => (some raiz, [])
        | none => (none, [])
      else
        match heappop (huffLoop heap.length heap) with
        | some (raiz, _) => (some raiz, gerar_codigos (some raiz) [] [])
        | none => (none, [])) := by
    rw [construir_arvore]
    rw [if_neg h]
  rcases hfq : frequencias texto with _ | ⟨p0, frrest⟩
  · exact absurd hfq (frequencias_ne_nil texto h)
  · have hrest : frrest = [] := by
      rw [hfq] at hone
      simpa using hone
    subst hrest
    have hheapeq : (frequencias texto).foldl
        (fun h p => heappush h (NoHuffman.mk (some p.1) p.2 none none)) [] =
        [NoHuffman.mk (some p0.1) p0.2 none none] := by
      rw [hfq]
      rfl
    refine ⟨p0, rfl, ?_⟩
    rw [hca]
    simp only [hheapeq]
    simp [heappop_singleton, NoHuffman.char]

/-- C2: for every non-empty input text, the code table produced by
`construir_arvore` minimizes the sum of frequency × code length over all
symbols, among all assignments of non-empty, pairwise non-prefix binary
codewords to the symbols of the frequency distribution (one codeword per
distinct symbol, in the frequency-table order). -/
theorem c2_huffman_optimal (texto : List Char) (h : texto ≠ [])
    (alt : List (List Char))
    (hlen : alt.length = (frequencias texto).length)
    (hne : ∀ v ∈ alt, v ≠ [])
    (hbits : ∀ v ∈ alt, ∀ c ∈ v, c = '0' ∨ c = '1')
    (hpf : alt.Pairwise (fun a b => ¬a <+: b ∧ ¬b <+: a)) :
    tableCost (frequencias texto) (construir_arvore texto).2 ≤
      costW ((frequencias texto).map Prod.snd) alt := by
  by_cases hone : (frequencias texto).length = 1
  · obtain ⟨p0, hfq, htab⟩ := construir_arvore_single_table texto h hone
    rw [htab, hfq]
    have hL : tableCost [p0] [(p0.1, ['0'])] = p0.2 := by
      show p0.2 * (dictGetD [(p0.1, ['0'])] p0.1 []).length + 0 = p0.2
      rw [dictGetD_of_mem_nodup [(p0.1, ['0'])] p0.1 ['0'] [] (by simp) (by simp)]
      simp
    rw [hL]
    rcases alt with _ | ⟨v0, altrest⟩
    · rw [hfq] at hlen
      simp at hlen
    · have hrest : altrest = [] := by
        rw [hfq] at hlen
        simpa using hlen
      subst hrest
      show p0.2 ≤ p0.2 * v0.length + 0
      have hv0 : 0 < v0.length := List.length_pos.2 (hne v0 (by simp))
      nlinarith
  · obtain ⟨raiz, hr1, hleafperm, hint, hcost⟩ := construir_arvore_cost texto h hone
    rw [hcost]
    rw [← costE_zip]
    have hlenws : ((frequencias texto).map Prod.snd).length = alt.length := by
      rw [List.length_map, hlen]
    have hfst : ((((frequencias texto).map Prod.snd).zip alt).map Prod.fst) =
        (frequencias texto).map Prod.snd :=
      List.map_fst_zip _ _ (le_of_eq hlenws)
    have hsnd : ((((frequencias texto).map Prod.snd).zip alt).map Prod.snd) = alt :=
      List.map_snd_zip _ _ (le_of_eq hlenws.symm)
    have hfr2 : 2 ≤ (frequencias texto).length := by
      have h0 : (frequencias texto).length ≠ 0 := fun hz =>
        frequencias_ne_nil texto h (List.eq_nil_of_length_eq_zero hz)
      omega
    have hzlen : 2 ≤ ((((frequencias texto).map Prod.snd).zip alt)).length := by
      rw [List.length_zip, List.length_map, hlen]
      omega
    have hbound := pf_cost_lower (totLen (((frequencias texto).map Prod.snd).zip alt))
      ((((frequencias texto).map Prod.snd)).zip alt) (le_refl _) hzlen
      (by
        intro e he
        obtain ⟨a, b⟩ := e
        exact hne b (List.of_mem_zip he).2)
      (by
        intro e he
        obtain ⟨a, b⟩ := e
        exact hbits b (List.of_mem_zip he).2)
      (by
        rw [hsnd]
        exact hpf)
    rw [hfst] at hbound
    exact hbound

theorem c2_huffman_optimal_witness :
    (['a', 'b'] : List Char) ≠ [] ∧
    ([['1'], ['0']] : List (List Char)).length = (frequencias ['a', 'b']).length ∧
    (∀ v ∈ ([['1'], ['0']] : List (List Char)), v ≠ []) ∧
    (∀ v ∈ ([['1'], ['0']] : List (List Char)), ∀ c ∈ v, c = '0' ∨ c = '1') ∧
    ([['1'], ['0']] : List (List Char)).Pairwise (fun a b => ¬a <+: b ∧ ¬b <+: a) ∧
    tableCost (frequencias ['a', 'b']) (construir_arvore ['a', 'b']).2 ≤
      costW ((frequencias ['a', 'b']).map Prod.snd) [['1'], ['0']] :=
  ⟨by decide, by decide, by decide, by decide, by decide,
    c2_huffman_optimal ['a', 'b'] (by decide) [['1'], ['0']] (by decide)
      (by decide) (by decide) (by decide)⟩
